import Mathlib

/-!
ADS_set: a linear-hashing set container

Shallow embedding of `ADS_set<Key, N>` (file `ADS_set.h`).

Modelling conventions.
* `size_t` values are natural numbers and the shifts `1 << d` are taken in
  unbounded arithmetic.  This is exact on every directory the code can build:
  the reallocation of `rehash` at `d = 29` asks for `1 << 31` entries and
  fails, so `d ≤ 29` and `tableSize < 2^30` there, and no counter or shift
  overflows.  `set_d`, which is also studied on an arbitrary `tableSize`, has
  a second model with the machine shift, `set_d_int`.
* A `Bucket*` is the list of buckets reachable from it through
  `overflow_bucket`; `nullptr` is the empty list.
* `Bucket::data` is allocated as `new Element[N]`, so it always has `N` cells.
  Loops `for (i = 0; i < bucketSize; ++i)` are traversals of that list.
* `table` is the physical array of directory entries (its length is the
  allocated capacity); cells that the code leaves uninitialised hold `[]`.
* `std::hash<Key>` is a parameter `hash : Key → Nat`, `std::equal_to<Key>` is
  equality on `Key`, and a default-initialised key is `default`.
-/

/-- Struct `Element`: one key cell and its `used` flag. -/
structure ADS_set.Element (Key : Type) where
  key : Key
  used : Bool
deriving DecidableEq, Repr

/-- Struct `Bucket`: the slot array; the `overflow_bucket` link is the tail of the chain list. -/
structure ADS_set.Bucket (Key : Type) where
  data : List (ADS_set.Element Key)
deriving DecidableEq, Repr

/-- A `Bucket*`: the chain of buckets starting at the pointee, `[]` for `nullptr`. -/
abbrev ADS_set.Chain (Key : Type) := List (ADS_set.Bucket Key)

/-- The data members of `ADS_set` (`bucketSize` is the template parameter `N`). -/
structure ADS_set (Key : Type) where
  table : List (ADS_set.Chain Key)
  tableSize : Nat
  nextToSplit : Nat
  d : Nat
  rehashing : Bool
  current_size : Nat
deriving DecidableEq, Repr

namespace ADS_set

variable {Key : Type} [DecidableEq Key] [Inhabited Key]

/-- Read of `table[i]`. -/
def tableAt (t : List (Chain Key)) (i : Nat) : Chain Key := t.getD i []

/-- Member `least_sig`: the directory index of a key. -/
def least_sig (hash : Key → Nat) (s : ADS_set Key) (key : Key) : Nat :=
  let index := hash key &&& ((1 <<< s.d) - 1)
  if index < s.nextToSplit then hash key &&& ((1 <<< (s.d + 1)) - 1) else index

/-- The slot loop `for i: if (data[i].used && data[i].key == key)`, counting from `i`. -/
def slotOf (key : Key) : List (Element Key) → Nat → Option Nat
  | [], _ => none
  | e :: es, i => if e.used && decide (e.key = key) then some i else slotOf key es (i + 1)

/-- The chain walk shared by `contains`, `find`, `insert` and `erase`: the first
bucket (depth in the chain, counted from `c`) and slot holding `key`. -/
def locate (key : Key) : Chain Key → Nat → Option (Nat × Nat)
  | [], _ => none
  | b :: bs, c =>
    match slotOf key b.data 0 with
    | some i => some (c, i)
    | none => locate key bs (c + 1)

/-- Member `contains(key)`. -/
def contains (hash : Key → Nat) (s : ADS_set Key) (key : Key) : Bool :=
  (locate key (tableAt s.table (least_sig hash s key)) 0).isSome

/-- Member `contains(key, index)`: `(found, slot, bucket)`, the bucket as its depth in the chain. -/
def containsAt (s : ADS_set Key) (key : Key) (index : Nat) : Bool × Nat × Option Nat :=
  match locate key (tableAt s.table index) 0 with
  | some (c, i) => (true, i, some c)
  | none => (false, 0, none)

/-- The result of `new Bucket`: `N` unused cells, no overflow. -/
def newBucket (N : Nat) : Bucket Key := ⟨List.replicate N ⟨default, false⟩⟩

/-- Member `add_to_chain`: a new bucket with `data[0] = {key, true}` after the last bucket. -/
def add_to_chain (N : Nat) (chain : Chain Key) (key : Key) : Chain Key :=
  chain ++ [⟨(newBucket N : Bucket Key).data.set 0 ⟨key, true⟩⟩]

/-- The slot loop of `insert_internal`: the first unused cell receives `{key, true}`. -/
def placeSlot (key : Key) : List (Element Key) → Option (List (Element Key))
  | [] => none
  | e :: es =>
    if !e.used then some (⟨key, true⟩ :: es)
    else (placeSlot key es).map (fun r => e :: r)

/-- The `while (bucket)` loop of `insert_internal`: the new chain and whether
`add_to_chain` was called. -/
def insert_walk (N : Nat) (key : Key) : Chain Key → Chain Key × Bool
  | [] => ([], false)
  | b :: bs =>
    match placeSlot key b.data with
    | some data => (⟨data⟩ :: bs, false)
    | none =>
      if bs.isEmpty then (add_to_chain N [b] key, true)
      else (b :: (insert_walk N key bs).1, (insert_walk N key bs).2)

/-- Member `insert_internal` without its call of `rehash`: the state and whether the
chain overflowed.  This is the whole of `insert_internal` when `rehashing` is set. -/
def insert_chain (N : Nat) (s : ADS_set Key) (index : Nat) (key : Key) : ADS_set Key × Bool :=
  let head := if tableAt s.table index = [] then [newBucket N] else tableAt s.table index
  let r := insert_walk N key head
  ({ s with table := s.table.set index r.1 }, r.2)

/-- The slot loop of `rehash`: every used key of one bucket is re-inserted. -/
def redistributeSlots (N : Nat) (hash : Key → Nat) :
    List (Element Key) → ADS_set Key → ADS_set Key
  | [], s => s
  | e :: es, s =>
    if e.used then
      redistributeSlots N hash es (insert_chain N s (least_sig hash s e.key) e.key).1
    else redistributeSlots N hash es s

/-- The `while (oldBucket)` loop of `rehash`. -/
def redistribute (N : Nat) (hash : Key → Nat) : Chain Key → ADS_set Key → ADS_set Key
  | [], s => s
  | b :: bs, s => redistribute N hash bs (redistributeSlots N hash b.data s)

/-- Member `rehash`: one split step. -/
def rehash (N : Nat) (hash : Key → Nat) (s : ADS_set Key) : ADS_set Key :=
  if s.rehashing then s
  else
    let s1 := { s with rehashing := true }
    let oldBucket := tableAt s1.table s1.nextToSplit
    let s2 := { s1 with table := s1.table.set s1.nextToSplit [] }
    let s3 := { s2 with nextToSplit := s2.nextToSplit + 1 }
    let f := 1 <<< s3.d
    let s4 :=
      if s3.nextToSplit ≥ f then
        { s3 with
          nextToSplit := 0
          d := s3.d + 1
          table := s3.table.take s3.tableSize ++
            List.replicate ((1 <<< (s3.d + 1 + 1)) - s3.tableSize) [] }
      else s3
    let s5 := { s4 with table := s4.table.set s4.tableSize [newBucket N] }
    let s6 := { s5 with tableSize := s5.tableSize + 1 }
    let s7 := redistribute N hash oldBucket s6
    { s7 with rehashing := false }

/-- Member `insert_internal`. -/
def insert_internal (N : Nat) (hash : Key → Nat) (s : ADS_set Key) (index : Nat) (key : Key) :
    ADS_set Key :=
  let r := insert_chain N s index key
  if r.2 && !r.1.rehashing then rehash N hash r.1 else r.1

/-- The default constructor. -/
def init (N : Nat) : ADS_set Key :=
  { table := [[newBucket N], [newBucket N], [], []]
    tableSize := 2
    nextToSplit := 0
    d := 1
    rehashing := false
    current_size := 0 }

/-- Member `clear`. -/
def clear (N : Nat) (s : ADS_set Key) : ADS_set Key :=
  { s with
    tableSize := 2
    nextToSplit := 0
    d := 1
    current_size := 0
    table := [[newBucket N], [newBucket N], [], []] }

/-- Member `size`. -/
def size (s : ADS_set Key) : Nat := s.current_size

/-- Member `empty`. -/
def empty (s : ADS_set Key) : Bool := decide (size s = 0)

/-- Class `iterator`: directory index, slot index and the current bucket (its depth
in the chain of `tableIndex`, `none` for `nullptr`).  The members `table`,
`tableSize` and `bucketSize` are those of the container it belongs to. -/
structure iterator where
  tableIndex : Nat
  bucketIndex : Nat
  currentBucket : Option Nat
deriving DecidableEq, Repr

/-- Innermost loop of `moveToNextValid`: `slots` are the cells from `bucketIndex` on. -/
def scanSlots : List (Element Key) → Nat → Option Nat
  | [], _ => none
  | e :: es, i => if e.used then some i else scanSlots es (i + 1)

/-- The `while (currentBucket)` loop of `moveToNextValid`: `rest` is the chain from
the current bucket on, `c` its depth.  Returns the position found, or the value of
`bucketIndex` when the chain is exhausted. -/
def scanChain : Chain Key → Nat → Nat → Option (Nat × Nat) × Nat
  | [], _, bi => (none, bi)
  | b :: bs, c, bi =>
    match scanSlots (b.data.drop bi) bi with
    | some i => (some (c, i), i)
    | none => scanChain bs (c + 1) 0

/-- The outer loop of `moveToNextValid` from the top of an iteration with
`currentBucket = table[tableIndex]`: `rest` are the directory entries from
`tableIndex` up to `tableSize`. -/
def scanTable : List (Chain Key) → Nat → Nat → iterator
  | [], ti, bi => ⟨ti, bi, none⟩
  | ch :: rest, ti, bi =>
    match scanChain ch 0 bi with
    | (some (c, i), _) => ⟨ti, i, some c⟩
    | (none, bi1) => scanTable rest (ti + 1) bi1

/-- Member `iterator::moveToNextValid`. -/
def moveToNextValid (s : ADS_set Key) (it : iterator) : iterator :=
  if it.tableIndex < s.tableSize then
    let c := it.currentBucket.getD 0
    match scanChain ((tableAt s.table it.tableIndex).drop c) c it.bucketIndex with
    | (some (c1, i), _) => ⟨it.tableIndex, i, some c1⟩
    | (none, bi1) =>
      scanTable ((s.table.take s.tableSize).drop (it.tableIndex + 1)) (it.tableIndex + 1) bi1
  else it

/-- The constructor of `iterator`. -/
def mkIterator (s : ADS_set Key) (tableIndex bucketIndex : Nat) (currentBucket : Option Nat) :
    iterator :=
  moveToNextValid s ⟨tableIndex, bucketIndex, currentBucket⟩

/-- Member `begin`. -/
def begin (s : ADS_set Key) : iterator := mkIterator s 0 0 none

/-- Member `end`. -/
def end_ (s : ADS_set Key) : iterator := mkIterator s s.tableSize 0 none

/-- Member `iterator::operator++`. -/
def next (s : ADS_set Key) (it : iterator) : iterator :=
  moveToNextValid s { it with bucketIndex := it.bucketIndex + 1 }

/-- Member `iterator::operator*`: `currentBucket->data[bucketIndex].key`. -/
def deref (s : ADS_set Key) (it : iterator) : Option Key :=
  match it.currentBucket with
  | none => none
  | some c =>
    match (tableAt s.table it.tableIndex)[c]? with
    | none => none
    | some b => (b.data[it.bucketIndex]?).map (fun e => e.key)

/-- Member `find`. -/
def find (hash : Key → Nat) (s : ADS_set Key) (key : Key) : iterator :=
  let index := least_sig hash s key
  match locate key (tableAt s.table index) 0 with
  | some (c, i) => mkIterator s index i (some c)
  | none => end_ s

/-- Member `count`. -/
def count (hash : Key → Nat) (s : ADS_set Key) (key : Key) : Nat :=
  if contains hash s key then 1 else 0

/-- Member `insert(key)`: the new state and the returned pair. -/
def insert (N : Nat) (hash : Key → Nat) (s : ADS_set Key) (key : Key) :
    ADS_set Key × iterator × Bool :=
  let index := least_sig hash s key
  let cont := containsAt s key index
  if !cont.1 then
    let s1 := insert_internal N hash s index key
    let s2 := { s1 with current_size := s1.current_size + 1 }
    let index2 := least_sig hash s2 key
    match locate key (tableAt s2.table index2) 0 with
    | some (c, i) => (s2, mkIterator s2 index2 i (some c), true)
    | none => (s2, end_ s2, false)
  else (s, mkIterator s index cont.2.1 cont.2.2, false)

/-- The slot loop of `erase`: the first used cell holding `key` becomes unused. -/
def eraseSlot (key : Key) : List (Element Key) → Option (List (Element Key))
  | [] => none
  | e :: es =>
    if e.used && decide (e.key = key) then some ({ e with used := false } :: es)
    else (eraseSlot key es).map (fun r => e :: r)

/-- The `while (bucket)` loop of `erase`. -/
def eraseChain (key : Key) : Chain Key → Chain Key
  | [] => []
  | b :: bs =>
    match eraseSlot key b.data with
    | some data => ⟨data⟩ :: bs
    | none => b :: eraseChain key bs

/-- Member `erase`: the new state and the returned count.  The decrement of
`current_size` happens only after `contains` succeeded. -/
def erase (hash : Key → Nat) (s : ADS_set Key) (key : Key) : ADS_set Key × Nat :=
  if !contains hash s key then (s, 0)
  else
    let index := least_sig hash s key
    let s1 := { s with table := s.table.set index (eraseChain key (tableAt s.table index)) }
    ({ s1 with current_size := s1.current_size - 1 }, 1)

/-- The `while (true)` loop of `set_d` with an iteration budget: the new
`(d, nextToSplit)`, or `none` when the budget is used up.  The shift
`1 << lastCycle` is taken in unbounded arithmetic, which is exact for
`tableSize < 2^31` (`set_d_loop_int` is the loop with the machine shift), and the
decrement `--lastCycle` on natural numbers: for `tableSize ≥ 1` the first branch
is only reached with `lastCycle ≥ 1`. -/
def set_d_loop (tableSize : Nat) : Nat → Nat → Option (Nat × Nat)
  | 0, _ => none
  | fuel + 1, lastCycle =>
    let fake_d := 1 <<< lastCycle
    if fake_d > tableSize then
      some (lastCycle - 1, tableSize - (1 <<< (lastCycle - 1)))
    else if fake_d = tableSize then some (lastCycle, 0)
    else set_d_loop tableSize fuel (lastCycle + 1)

/-- Member `set_d` under the convention of this file (shifts in unbounded
arithmetic), as the copy constructor and the assignments call it.  The loop leaves
within `tableSize + 1` iterations (`set_d_loop_general`), so the second branch is
never taken.  It agrees with the machine model `set_d_int` for
`1 ≤ tableSize < 2^31` (`set_d_int_agrees`). -/
def set_d (s : ADS_set Key) : ADS_set Key :=
  match set_d_loop s.tableSize (s.tableSize + 1) 0 with
  | some r => { s with d := r.1, nextToSplit := r.2 }
  | none => s

/-- The constructor from an initializer list. -/
def ofList (N : Nat) (hash : Key → Nat) (ilist : List Key) : ADS_set Key :=
  ilist.foldl (fun s key => (insert N hash s key).1) (init N)

/-- The slot loop of the copy constructor. -/
def copySlots (N : Nat) (hash : Key → Nat) : List (Element Key) → ADS_set Key → ADS_set Key
  | [], s => s
  | e :: es, s =>
    if e.used then copySlots N hash es (insert N hash s e.key).1
    else copySlots N hash es s

/-- The `while (bucket)` loop of the copy constructor. -/
def copyChain (N : Nat) (hash : Key → Nat) : Chain Key → ADS_set Key → ADS_set Key
  | [], s => s
  | b :: bs, s => copyChain N hash bs (copySlots N hash b.data s)

/-- The loop of the copy constructor over the directory entries `0 .. other.tableSize - 1`. -/
def copyTable (N : Nat) (hash : Key → Nat) : List (Chain Key) → ADS_set Key → ADS_set Key
  | [], s => s
  | c :: cs, s => copyTable N hash cs (copyChain N hash c s)

/-- The copy constructor. -/
def copy (N : Nat) (hash : Key → Nat) (other : ADS_set Key) : ADS_set Key :=
  set_d (copyTable N hash (other.table.take other.tableSize) (init N))

/-- The copy assignment `operator=(const ADS_set&)` for `this != &other`. -/
def assign (N : Nat) (hash : Key → Nat) (self other : ADS_set Key) : ADS_set Key :=
  set_d (copyTable N hash (other.table.take other.tableSize) (clear N self))

/-- The assignment `operator=(std::initializer_list<key_type>)`. -/
def assignList (N : Nat) (hash : Key → Nat) (self : ADS_set Key) (ilist : List Key) :
    ADS_set Key :=
  set_d (ilist.foldl (fun s key => (insert N hash s key).1) (clear N self))

/-- The range-for loop of `operator==` with an iteration budget (`none`: budget used
up, or an iterator that cannot be dereferenced). -/
def eqLoop (hash : Key → Nat) (lhs rhs : ADS_set Key) : Nat → iterator → Option Bool
  | 0, _ => none
  | fuel + 1, it =>
    if it = end_ lhs then some true
    else
      match deref lhs it with
      | none => none
      | some element =>
        if find hash rhs element = end_ rhs then some false
        else eqLoop hash lhs rhs fuel (next lhs it)

/-- The free function `operator==` with an iteration budget for its loop. -/
def operator_eq (hash : Key → Nat) (fuel : Nat) (lhs rhs : ADS_set Key) : Option Bool :=
  if size lhs ≠ size rhs then some false
  else eqLoop hash lhs rhs fuel (begin lhs)

/-- One call of the public interface. -/
inductive Op (Key : Type) where
  | insert (key : Key)
  | erase (key : Key)
  | clear
deriving DecidableEq, Repr

/-- The state after one call. -/
def step (N : Nat) (hash : Key → Nat) (s : ADS_set Key) : Op Key → ADS_set Key
  | .insert key => (insert N hash s key).1
  | .erase key => (erase hash s key).1
  | .clear => clear N s

/-- The state after a sequence of calls on a default-constructed container. -/
def run (N : Nat) (hash : Key → Nat) (ops : List (Op Key)) : ADS_set Key :=
  ops.foldl (step N hash) (init N)

/-- The states obtained from a default-constructed container by insert, erase and clear. -/
inductive Reachable (N : Nat) (hash : Key → Nat) : ADS_set Key → Prop
  | init : Reachable N hash (init N)
  | step (s : ADS_set Key) (op : Op Key) : Reachable N hash s → Reachable N hash (step N hash s op)

/-- The mathematical set after one call. -/
def specStep (S : Finset Key) : Op Key → Finset Key
  | .insert key => Insert.insert key S
  | .erase key => S.erase key
  | .clear => ∅

/-- The mathematical set after a sequence of calls on the empty set. -/
def specRun (ops : List (Op Key)) : Finset Key := ops.foldl specStep ∅

/-- The keys of the used cells of one bucket, in slot order. -/
def slotKeys (data : List (Element Key)) : List Key :=
  (data.filter (fun e => e.used)).map (fun e => e.key)

/-- The keys of the used cells of a chain, in chain and slot order. -/
def chainKeys (c : Chain Key) : List Key := c.flatMap (fun b => slotKeys b.data)

/-- The stored keys: the used cells of the chains of the directory entries
`0 .. tableSize - 1`, in directory, chain and slot order. -/
def keys (s : ADS_set Key) : List Key := (s.table.take s.tableSize).flatMap chainKeys

/-- The number of used cells met by a traversal of every chain of the directory
entries `0 .. tableSize - 1`. -/
def occupiedSlots (s : ADS_set Key) : Nat :=
  ((s.table.take s.tableSize).map
    (fun c => (c.map (fun b => (b.data.filter (fun e => e.used)).length)).sum)).sum

/-- The index rule of `least_sig` on the hash value `h`, in arithmetic form. -/
def lsig (h d p : Nat) : Nat := if h % 2 ^ d < p then h % 2 ^ (d + 1) else h % 2 ^ d

/-- The structural invariant of the directory and the chains. -/
structure Shape (N : Nat) (hash : Key → Nat) (s : ADS_set Key) : Prop where
  cap : s.table.length = 2 ^ (s.d + 1)
  ts : s.tableSize = 2 ^ s.d + s.nextToSplit
  nts : s.nextToSplit < 2 ^ s.d
  dpos : 1 ≤ s.d
  wf : ∀ c ∈ s.table, ∀ b ∈ c, b.data.length = N
  idx : ∀ i, i < s.tableSize → ∀ k ∈ chainKeys (tableAt s.table i), least_sig hash s k = i
  nodup : (keys s).Nodup

/-- The invariant of the states of the public interface. -/
structure Inv (N : Nat) (hash : Key → Nat) (s : ADS_set Key) : Prop where
  shape : Shape N hash s
  cnt : s.current_size = (keys s).length
  idle : s.rehashing = false

/-- The state of `rehash` when its redistribution loop starts: the split bucket is
detached, the cursor advanced and the new directory entry appended. -/
def rehash_prep (N : Nat) (s : ADS_set Key) : ADS_set Key :=
  { table :=
      (if s.nextToSplit + 1 ≥ 1 <<< s.d then
        (s.table.set s.nextToSplit []).take s.tableSize ++
          List.replicate ((1 <<< (s.d + 1 + 1)) - s.tableSize) []
      else s.table.set s.nextToSplit []).set s.tableSize [newBucket N]
    tableSize := s.tableSize + 1
    nextToSplit := if s.nextToSplit + 1 ≥ 1 <<< s.d then 0 else s.nextToSplit + 1
    d := if s.nextToSplit + 1 ≥ 1 <<< s.d then s.d + 1 else s.d
    rehashing := true
    current_size := s.current_size }

/-- Two states that differ in their directory contents only. -/
def SameParams (s t : ADS_set Key) : Prop :=
  t.tableSize = s.tableSize ∧ t.nextToSplit = s.nextToSplit ∧ t.d = s.d ∧
    t.rehashing = s.rehashing ∧ t.current_size = s.current_size

/-- An iterator that stands on a used cell of a chain of the directory. -/
def Valid (s : ADS_set Key) (it : iterator) : Prop :=
  it.tableIndex < s.tableSize ∧
    ∃ c b e, it.currentBucket = some c ∧ (tableAt s.table it.tableIndex)[c]? = some b ∧
      b.data[it.bucketIndex]? = some e ∧ e.used = true

/-- The keys of the used cells of a chain from slot `bi` of its first bucket on. -/
def chainKeysFrom : Chain Key → Nat → List Key
  | [], _ => []
  | b :: bs, bi => slotKeys (b.data.drop bi) ++ chainKeys bs

/-- The keys of the used cells at or after the position of an iterator, in
directory, chain and slot order. -/
def remKeys (s : ADS_set Key) (it : iterator) : List Key :=
  chainKeysFrom ((tableAt s.table it.tableIndex).drop (it.currentBucket.getD 0)) it.bucketIndex ++
    ((s.table.take s.tableSize).drop (it.tableIndex + 1)).flatMap chainKeys

/-- The iterator `it` is `end()` when no key remains, and otherwise stands on the
used cell of the first remaining key, the others coming after it. -/
def At (s : ADS_set Key) (it : iterator) (L : List Key) : Prop :=
  (L = [] ∧ it = end_ s) ∨
    ∃ k L1, L = k :: L1 ∧ Valid s it ∧ deref s it = some k ∧
      remKeys s { it with bucketIndex := it.bucketIndex + 1 } = L1

/-- The number of used cells holding `k` met by a traversal of every chain of the
directory entries `0 .. tableSize - 1`. -/
def slotsHolding (s : ADS_set Key) (k : Key) : Nat :=
  ((s.table.take s.tableSize).map
    (fun c => (c.map (fun b =>
      (b.data.filter (fun e => e.used && decide (e.key = k))).length)).sum)).sum

/-- The states in which `rehash` is entered: `insert_internal`, called by `insert(k)`
on a reachable state for a key that is not stored, has just appended an overflow
bucket with `add_to_chain`. -/
def SplitEntry (N : Nat) (hash : Key → Nat) (t : ADS_set Key) : Prop :=
  ∃ s k, Reachable N hash s ∧ k ∉ keys s ∧
    (insert_chain N s (least_sig hash s k) k).2 = true ∧
    t = (insert_chain N s (least_sig hash s k) k).1

/-- The first directory position that no split step has detached since the
construction or the last `clear()`: the positions below the split cursor were
detached in the current round, those below `2^(d-1)` in the round before. -/
def splitBound (s : ADS_set Key) : Nat :=
  if s.d = 1 then s.nextToSplit else max s.nextToSplit (2 ^ (s.d - 1))

/-- Every directory entry that no split step has detached holds a bucket. -/
def NoNull (s : ADS_set Key) : Prop :=
  ∀ i, i < s.tableSize → splitBound s ≤ i → tableAt s.table i ≠ []

/-- Every used cell in the chain of a directory entry `i < tableSize` holds a key
whose index is `i`. -/
def IndexConsistent (hash : Key → Nat) (s : ADS_set Key) : Prop :=
  ∀ i, i < s.tableSize → ∀ b ∈ tableAt s.table i, ∀ e ∈ b.data, e.used = true →
    least_sig hash s e.key = i

/-- The chain of directory entry `i` exists and every cell of every bucket in it is used. -/
def ChainFull (s : ADS_set Key) (i : Nat) : Prop :=
  tableAt s.table i ≠ [] ∧ ∀ b ∈ tableAt s.table i, ∀ e ∈ b.data, e.used = true

/-- The iterator after `n` increments starting at `begin()`. -/
def iter (s : ADS_set Key) : Nat → iterator
  | 0 => begin s
  | n + 1 => next s (iter s n)

end ADS_set

namespace ADS_set

variable {Key : Type} [DecidableEq Key] [Inhabited Key]

set_option linter.unusedSectionVars false

/-! ### Slots and chains -/

theorem slotKeys_nil : slotKeys ([] : List (Element Key)) = [] := rfl

theorem slotKeys_cons (e : Element Key) (es : List (Element Key)) :
    slotKeys (e :: es) = if e.used then e.key :: slotKeys es else slotKeys es := by
  unfold slotKeys
  cases h : e.used <;> simp [List.filter_cons, h]

theorem chainKeys_nil : chainKeys ([] : Chain Key) = [] := rfl

theorem chainKeys_cons (b : Bucket Key) (bs : Chain Key) :
    chainKeys (b :: bs) = slotKeys b.data ++ chainKeys bs := by
  simp [chainKeys]

theorem chainKeys_append (c1 c2 : Chain Key) :
    chainKeys (c1 ++ c2) = chainKeys c1 ++ chainKeys c2 := by
  simp [chainKeys]

theorem slotOf_eq_none (key : Key) (es : List (Element Key)) (i : Nat) :
    slotOf key es i = none ↔ key ∉ slotKeys es := by
  induction es generalizing i with
  | nil => simp [slotOf, slotKeys_nil]
  | cons e es ih =>
    rw [slotOf, slotKeys_cons]
    by_cases hu : e.used = true
    · by_cases hk : e.key = key
      · simp [hu, hk]
      · have hk2 : ¬ key = e.key := fun h => hk h.symm
        simp [hu, hk, hk2, ih]
    · simp [hu, ih]

theorem slotOf_some (key : Key) (es : List (Element Key)) (i j : Nat)
    (h : slotOf key es i = some j) :
    i ≤ j ∧ ∃ e, es[j - i]? = some e ∧ e.used = true ∧ e.key = key := by
  induction es generalizing i with
  | nil => simp [slotOf] at h
  | cons e es ih =>
    rw [slotOf] at h
    by_cases hc : (e.used && decide (e.key = key)) = true
    · rw [if_pos hc] at h
      simp only [Option.some.injEq] at h
      subst h
      simp only [Bool.and_eq_true, decide_eq_true_eq] at hc
      exact ⟨le_refl _, e, by simp, hc.1, hc.2⟩
    · rw [if_neg hc] at h
      obtain ⟨h1, e1, h2, h3⟩ := ih (i + 1) h
      refine ⟨by omega, e1, ?_, h3⟩
      have : j - i = (j - (i + 1)) + 1 := by omega
      rw [this]
      simpa using h2

theorem locate_eq_none (key : Key) (c : Chain Key) (n : Nat) :
    locate key c n = none ↔ key ∉ chainKeys c := by
  induction c generalizing n with
  | nil => simp [locate, chainKeys_nil]
  | cons b bs ih =>
    rw [locate, chainKeys_cons]
    cases h : slotOf key b.data 0 with
    | none =>
      have := (slotOf_eq_none key b.data 0).1 h
      simp [ih, this]
    | some i =>
      have : key ∈ slotKeys b.data := by
        by_contra hc
        rw [(slotOf_eq_none key b.data 0).2 hc] at h
        exact Option.noConfusion h
      simp [this]

theorem locate_isSome (key : Key) (c : Chain Key) (n : Nat) :
    (locate key c n).isSome = true ↔ key ∈ chainKeys c := by
  rw [← not_iff_not, ← locate_eq_none key c n]
  cases locate key c n <;> simp

theorem locate_some (key : Key) (ch : Chain Key) (n c1 i : Nat)
    (h : locate key ch n = some (c1, i)) :
    n ≤ c1 ∧ ∃ b e, ch[c1 - n]? = some b ∧ b.data[i]? = some e ∧ e.used = true ∧ e.key = key := by
  induction ch generalizing n with
  | nil => simp [locate] at h
  | cons b bs ih =>
    rw [locate] at h
    cases hs : slotOf key b.data 0 with
    | none =>
      rw [hs] at h
      obtain ⟨h1, b1, e1, h2, h3⟩ := ih (n + 1) h
      refine ⟨by omega, b1, e1, ?_, h3⟩
      have : c1 - n = (c1 - (n + 1)) + 1 := by omega
      rw [this]
      simpa using h2
    | some j =>
      rw [hs] at h
      simp only [Option.some.injEq, Prod.mk.injEq] at h
      obtain ⟨rfl, rfl⟩ := h
      obtain ⟨_, e, h2, h3⟩ := slotOf_some key b.data 0 j hs
      exact ⟨le_refl _, b, e, by simp, by simpa using h2, h3⟩

theorem placeSlot_some (key : Key) (es r : List (Element Key)) (h : placeSlot key es = some r) :
    (slotKeys r).Perm (key :: slotKeys es) ∧ r.length = es.length := by
  induction es generalizing r with
  | nil => simp [placeSlot] at h
  | cons e es ih =>
    rw [placeSlot] at h
    by_cases hu : e.used = true
    · simp only [hu, Bool.not_true, Bool.false_eq_true, if_false, Option.map_eq_some'] at h
      obtain ⟨r1, h1, rfl⟩ := h
      obtain ⟨p, l⟩ := ih r1 h1
      refine ⟨?_, by simp [l]⟩
      rw [slotKeys_cons, slotKeys_cons, if_pos hu, if_pos hu]
      exact (List.Perm.cons _ p).trans (List.Perm.swap _ _ _)
    · have hu2 : e.used = false := by simpa using hu
      simp only [hu2, Bool.not_false, if_true, Option.some.injEq] at h
      subst h
      refine ⟨?_, by simp⟩
      rw [slotKeys_cons, slotKeys_cons]
      simp [hu2]

theorem newBucket_keys (N : Nat) : slotKeys (newBucket N : Bucket Key).data = [] := by
  unfold newBucket slotKeys
  simp

theorem add_bucket_keys (N : Nat) (hN : 1 ≤ N) (key : Key) :
    slotKeys ((newBucket N : Bucket Key).data.set 0 ⟨key, true⟩) = [key] := by
  obtain ⟨m, rfl⟩ : ∃ m, N = m + 1 := ⟨N - 1, by omega⟩
  unfold newBucket slotKeys
  simp [List.replicate_succ]

theorem insert_walk_spec (N : Nat) (hN : 1 ≤ N) (key : Key) (c : Chain Key) (hc : c ≠ []) :
    (chainKeys (insert_walk N key c).1).Perm (key :: chainKeys c) ∧
    (insert_walk N key c).1 ≠ [] ∧
    ((∀ b ∈ c, b.data.length = N) → ∀ b ∈ (insert_walk N key c).1, b.data.length = N) := by
  induction c with
  | nil => exact absurd rfl hc
  | cons b bs ih =>
    rw [insert_walk]
    cases hp : placeSlot key b.data with
    | some r =>
      obtain ⟨p, l⟩ := placeSlot_some key b.data r hp
      refine ⟨?_, by simp, ?_⟩
      · simp only [chainKeys_cons]
        exact List.Perm.append_right _ p
      · intro hw b1 hb1
        simp only [List.mem_cons] at hb1
        rcases hb1 with rfl | hb1
        · simpa [l] using hw b (by simp)
        · exact hw b1 (by simp [hb1])
    | none =>
      cases bs with
      | nil =>
        simp only [List.isEmpty_nil, if_true]
        refine ⟨?_, by simp [add_to_chain], ?_⟩
        · simp only [add_to_chain, chainKeys_append, chainKeys_cons, chainKeys_nil,
            add_bucket_keys N hN key, List.append_nil]
          exact List.perm_append_comm
        · intro hw b1 hb1
          simp only [add_to_chain, List.cons_append, List.nil_append, List.mem_cons,
            List.mem_singleton, List.not_mem_nil, or_false] at hb1
          rcases hb1 with rfl | rfl
          · exact hw _ (by simp)
          · simp [newBucket]
      | cons b2 rest =>
        simp only [List.isEmpty_cons, Bool.false_eq_true, if_false]
        obtain ⟨p, _, w⟩ := ih (by simp)
        refine ⟨?_, by simp, ?_⟩
        · simp only [chainKeys_cons] at p ⊢
          exact (List.Perm.append_left _ p).trans List.perm_middle
        · intro hw b1 hb1
          simp only [List.mem_cons] at hb1
          rcases hb1 with rfl | hb1
          · exact hw _ (by simp)
          · exact w (fun x hx => hw x (by simp [List.mem_cons] at hx ⊢; tauto)) b1 hb1

theorem eraseSlot_eq_none (key : Key) (es : List (Element Key)) :
    eraseSlot key es = none ↔ key ∉ slotKeys es := by
  induction es with
  | nil => simp [eraseSlot, slotKeys_nil]
  | cons e es ih =>
    rw [eraseSlot, slotKeys_cons]
    by_cases hu : e.used = true
    · by_cases hk : e.key = key
      · simp [hu, hk]
      · have hk2 : ¬ key = e.key := fun h => hk h.symm
        simp [hu, hk, hk2, ih]
    · simp [hu, ih]

theorem eraseSlot_some (key : Key) (es r : List (Element Key)) (h : eraseSlot key es = some r) :
    slotKeys r = (slotKeys es).erase key ∧ r.length = es.length := by
  induction es generalizing r with
  | nil => simp [eraseSlot] at h
  | cons e es ih =>
    rw [eraseSlot] at h
    by_cases hc : (e.used && decide (e.key = key)) = true
    · rw [if_pos hc] at h
      simp only [Option.some.injEq] at h
      subst h
      simp only [Bool.and_eq_true, decide_eq_true_eq] at hc
      refine ⟨?_, by simp⟩
      rw [slotKeys_cons, slotKeys_cons]
      simp [hc.1, hc.2]
    · rw [if_neg hc] at h
      simp only [Option.map_eq_some'] at h
      obtain ⟨r1, h1, rfl⟩ := h
      obtain ⟨p, l⟩ := ih r1 h1
      refine ⟨?_, by simp [l]⟩
      rw [slotKeys_cons, slotKeys_cons]
      by_cases hu : e.used = true
      · have hk : ¬ e.key = key := by
          intro hk
          exact hc (by simp [hu, hk])
        simp [hu, p, List.erase_cons, hk]
      · simp [hu, p]

theorem eraseChain_spec (key : Key) (ch : Chain Key) :
    chainKeys (eraseChain key ch) = (chainKeys ch).erase key ∧
    ∀ N, (∀ b ∈ ch, b.data.length = N) → ∀ b ∈ eraseChain key ch, b.data.length = N := by
  induction ch with
  | nil => simp [eraseChain, chainKeys_nil]
  | cons b bs ih =>
    rw [eraseChain]
    cases hp : eraseSlot key b.data with
    | some r =>
      obtain ⟨p, l⟩ := eraseSlot_some key b.data r hp
      have hm : key ∈ slotKeys b.data := by
        by_contra hc
        rw [(eraseSlot_eq_none key b.data).2 hc] at hp
        exact Option.noConfusion hp
      refine ⟨?_, ?_⟩
      · simp only [chainKeys_cons, p]
        rw [List.erase_append_left _ hm]
      · intro N hw b1 hb1
        simp only [List.mem_cons] at hb1
        rcases hb1 with rfl | hb1
        · simpa [l] using hw b (by simp)
        · exact hw b1 (by simp [hb1])
    | none =>
      have hm := (eraseSlot_eq_none key b.data).1 hp
      refine ⟨?_, ?_⟩
      · simp only [chainKeys_cons, ih.1]
        rw [List.erase_append_right _ hm]
      · intro N hw b1 hb1
        simp only [List.mem_cons] at hb1
        rcases hb1 with rfl | hb1
        · exact hw _ (by simp)
        · exact ih.2 N (fun x hx => hw x (by simp [hx])) b1 hb1

/-! ### The directory -/

theorem tableAt_set (t : List (Chain Key)) (i j : Nat) (x : Chain Key) :
    tableAt (t.set i x) j = if i = j ∧ i < t.length then x else tableAt t j := by
  unfold tableAt
  simp only [List.getD_eq_getElem?_getD, List.getElem?_set]
  by_cases h : i = j
  · subst h
    by_cases h2 : i < t.length
    · simp [h2]
    · simp [h2, List.getElem?_eq_none (Nat.le_of_not_lt h2)]
  · simp [h]

theorem tableAt_take (t : List (Chain Key)) (n i : Nat) (h : i < n) :
    tableAt (t.take n) i = tableAt t i := by
  unfold tableAt
  simp [List.getElem?_take, h]

theorem tableAt_mem (t : List (Chain Key)) (i : Nat) (h : tableAt t i ≠ []) :
    tableAt t i ∈ t := by
  unfold tableAt at h ⊢
  rw [List.getD_eq_getElem?_getD] at h ⊢
  cases hh : t[i]? with
  | none => simp [hh] at h
  | some x =>
    simp only [Option.getD_some]
    exact List.getElem?_mem hh

theorem flatMap_split (D : List (Chain Key)) (i : Nat) (h : i < D.length) :
    D.flatMap chainKeys =
      (D.take i).flatMap chainKeys ++ chainKeys (tableAt D i) ++
        (D.drop (i + 1)).flatMap chainKeys := by
  have h1 : D = D.take i ++ (tableAt D i :: D.drop (i + 1)) := by
    have : tableAt D i = D[i] := by
      unfold tableAt
      simp [List.getD_eq_getElem?_getD, List.getElem?_eq_getElem h]
    rw [this]
    simp
  conv_lhs => rw [h1]
  simp [List.flatMap_append]

theorem flatMap_set (D : List (Chain Key)) (i : Nat) (h : i < D.length) (x : Chain Key) :
    (D.set i x).flatMap chainKeys =
      (D.take i).flatMap chainKeys ++ chainKeys x ++ (D.drop (i + 1)).flatMap chainKeys := by
  rw [List.set_eq_take_append_cons_drop, if_pos h]
  simp [List.flatMap_append]

theorem keys_split (s : ADS_set Key) (i : Nat) (h : i < s.tableSize)
    (hl : s.tableSize ≤ s.table.length) :
    keys s = ((s.table.take s.tableSize).take i).flatMap chainKeys ++
      chainKeys (tableAt s.table i) ++
      ((s.table.take s.tableSize).drop (i + 1)).flatMap chainKeys := by
  unfold keys
  rw [flatMap_split (s.table.take s.tableSize) i (by simp; omega), tableAt_take _ _ _ h]

theorem keys_set (s : ADS_set Key) (i : Nat) (h : i < s.tableSize)
    (hl : s.tableSize ≤ s.table.length) (x : Chain Key) :
    keys { s with table := s.table.set i x } =
      ((s.table.take s.tableSize).take i).flatMap chainKeys ++ chainKeys x ++
      ((s.table.take s.tableSize).drop (i + 1)).flatMap chainKeys := by
  unfold keys
  simp only
  rw [List.set_take, flatMap_set (s.table.take s.tableSize) i (by simp; omega)]

theorem mem_keys (s : ADS_set Key) (hl : s.tableSize ≤ s.table.length) (k : Key) :
    k ∈ keys s ↔ ∃ i, i < s.tableSize ∧ k ∈ chainKeys (tableAt s.table i) := by
  unfold keys
  rw [List.mem_flatMap]
  constructor
  · rintro ⟨c, hc, hk⟩
    obtain ⟨i, hi, rfl⟩ := List.getElem_of_mem hc
    simp only [List.length_take] at hi
    refine ⟨i, by omega, ?_⟩
    have : tableAt s.table i = (s.table.take s.tableSize)[i] := by
      unfold tableAt
      rw [List.getD_eq_getElem?_getD, List.getElem_take, List.getElem?_eq_getElem (by omega)]
      rfl
    rw [this]
    exact hk
  · rintro ⟨i, hi, hk⟩
    refine ⟨tableAt s.table i, ?_, hk⟩
    rw [← tableAt_take s.table s.tableSize i hi]
    apply tableAt_mem
    rw [tableAt_take s.table s.tableSize i hi]
    intro h0
    rw [h0] at hk
    simp [chainKeys_nil] at hk

/-! ### The index rule -/

theorem least_sig_eq (hash : Key → Nat) (s : ADS_set Key) (k : Key) :
    least_sig hash s k = lsig (hash k) s.d s.nextToSplit := by
  unfold least_sig lsig
  simp only [Nat.one_shiftLeft, Nat.and_pow_two_sub_one_eq_mod]

theorem mod_succ_cases (h d : Nat) :
    h % 2 ^ (d + 1) = h % 2 ^ d ∨ h % 2 ^ (d + 1) = h % 2 ^ d + 2 ^ d := by
  rw [Nat.mod_pow_succ]
  rcases Nat.mod_two_eq_zero_or_one (h / 2 ^ d) with h0 | h1
  · left; rw [h0]; simp
  · right; rw [h1]; simp

theorem lsig_lt (h d p : Nat) (_hp : p < 2 ^ d) : lsig h d p < 2 ^ d + p := by
  unfold lsig
  have h1 : h % 2 ^ d < 2 ^ d := Nat.mod_lt _ (by positivity)
  split
  · rcases mod_succ_cases h d with e | e <;> omega
  · omega

theorem lsig_eq_split (h d p : Nat) (_hp : p < 2 ^ d) :
    lsig h d p = p ↔ h % 2 ^ d = p := by
  unfold lsig
  have h1 : h % 2 ^ d < 2 ^ d := Nat.mod_lt _ (by positivity)
  split
  · rcases mod_succ_cases h d with e | e <;> omega
  · rfl

/-- The index of a key outside the split bucket does not change in a split step. -/
theorem lsig_step_ne (h d p : Nat) (hp : p < 2 ^ d) (hne : lsig h d p ≠ p) :
    lsig h (if p + 1 ≥ 2 ^ d then d + 1 else d) (if p + 1 ≥ 2 ^ d then 0 else p + 1) =
      lsig h d p := by
  have hs := lsig_eq_split h d p hp
  have h1 : h % 2 ^ d < 2 ^ d := Nat.mod_lt _ (by positivity)
  have h2 : h % 2 ^ d ≠ p := fun e => hne (hs.2 e)
  unfold lsig
  by_cases hw : p + 1 ≥ 2 ^ d
  · simp only [if_pos hw, Nat.not_lt_zero, if_false]
    rw [if_pos (by omega)]
  · simp only [if_neg hw]
    by_cases hlt : h % 2 ^ d < p
    · rw [if_pos hlt, if_pos (by omega)]
    · rw [if_neg hlt, if_neg (by omega)]

/-- The index of a key of the split bucket after the split step is the old or the new entry. -/
theorem lsig_step_eq (h d p : Nat) (hp : p < 2 ^ d) (he : lsig h d p = p) :
    lsig h (if p + 1 ≥ 2 ^ d then d + 1 else d) (if p + 1 ≥ 2 ^ d then 0 else p + 1) = p ∨
    lsig h (if p + 1 ≥ 2 ^ d then d + 1 else d) (if p + 1 ≥ 2 ^ d then 0 else p + 1) =
      2 ^ d + p := by
  have h2 := (lsig_eq_split h d p hp).1 he
  unfold lsig
  by_cases hw : p + 1 ≥ 2 ^ d
  · simp only [if_pos hw, Nat.not_lt_zero, if_false]
    rcases mod_succ_cases h d with e | e <;> omega
  · simp only [if_neg hw]
    rw [if_pos (by omega)]
    rcases mod_succ_cases h d with e | e <;> omega

/-! ### Insertion into a chain -/

theorem Shape.size_lt {N : Nat} {hash : Key → Nat} {s : ADS_set Key} (h : Shape N hash s) :
    s.tableSize < s.table.length := by
  rw [h.cap, h.ts, pow_succ]
  have := h.nts
  omega

theorem Shape.least_sig_lt {N : Nat} {hash : Key → Nat} {s : ADS_set Key} (h : Shape N hash s)
    (k : Key) : least_sig hash s k < s.tableSize := by
  rw [least_sig_eq, h.ts]
  exact lsig_lt _ _ _ h.nts

theorem Shape.mem_keys_iff {N : Nat} {hash : Key → Nat} {s : ADS_set Key} (h : Shape N hash s)
    (k : Key) : k ∈ keys s ↔ k ∈ chainKeys (tableAt s.table (least_sig hash s k)) := by
  rw [ADS_set.mem_keys s (Nat.le_of_lt h.size_lt) k]
  constructor
  · rintro ⟨i, hi, hk⟩
    rw [h.idx i hi k hk]
    exact hk
  · intro hk
    exact ⟨_, h.least_sig_lt k, hk⟩

theorem SameParams.refl (s : ADS_set Key) : SameParams s s := ⟨rfl, rfl, rfl, rfl, rfl⟩

theorem SameParams.trans {s t u : ADS_set Key} (h1 : SameParams s t) (h2 : SameParams t u) :
    SameParams s u :=
  ⟨h2.1.trans h1.1, h2.2.1.trans h1.2.1, h2.2.2.1.trans h1.2.2.1,
    h2.2.2.2.1.trans h1.2.2.2.1, h2.2.2.2.2.trans h1.2.2.2.2⟩

theorem SameParams.least_sig {s t : ADS_set Key} (h : SameParams s t) (hash : Key → Nat)
    (k : Key) : least_sig hash t k = least_sig hash s k := by
  rw [least_sig_eq, least_sig_eq, h.2.1, h.2.2.1]

theorem insert_chain_params (N : Nat) (s : ADS_set Key) (i : Nat) (k : Key) :
    SameParams s (insert_chain N s i k).1 := ⟨rfl, rfl, rfl, rfl, rfl⟩

theorem insert_chain_shape (N : Nat) (hN : 1 ≤ N) (hash : Key → Nat) (s : ADS_set Key)
    (hs : Shape N hash s) (k : Key) (hk : k ∉ keys s) :
    Shape N hash (insert_chain N s (least_sig hash s k) k).1 ∧
    (keys (insert_chain N s (least_sig hash s k) k).1).Perm (k :: keys s) := by
  have hi := hs.least_sig_lt k
  have hl := hs.size_lt
  generalize hidef : least_sig hash s k = i at hi ⊢
  have hhead : ∃ head : Chain Key, head ≠ [] ∧ chainKeys head = chainKeys (tableAt s.table i) ∧
      (∀ b ∈ head, b.data.length = N) ∧
      (insert_chain N s i k).1 = { s with table := s.table.set i (insert_walk N k head).1 } := by
    by_cases h0 : tableAt s.table i = []
    · refine ⟨[newBucket N], by simp, ?_, ?_, ?_⟩
      · rw [h0, chainKeys_cons, newBucket_keys, chainKeys_nil]
        rfl
      · intro b hb
        simp only [List.mem_singleton] at hb
        subst hb
        simp [newBucket]
      · simp [insert_chain, h0]
    · refine ⟨tableAt s.table i, h0, rfl, ?_, ?_⟩
      · exact hs.wf _ (tableAt_mem _ _ h0)
      · simp [insert_chain, h0]
  obtain ⟨head, hne, hkeys, hwf, heq⟩ := hhead
  obtain ⟨hperm, _, hwf2⟩ := insert_walk_spec N hN k head hne
  rw [heq]
  have hK : (keys { s with table := s.table.set i (insert_walk N k head).1 }).Perm
      (k :: keys s) := by
    rw [keys_set s i hi (Nat.le_of_lt hl), keys_split s i hi (Nat.le_of_lt hl)]
    rw [hkeys] at hperm
    refine ((hperm.append_left _).append_right _).trans ?_
    simp only [List.append_assoc]
    exact List.perm_middle
  refine ⟨⟨?_, hs.ts, hs.nts, hs.dpos, ?_, ?_, ?_⟩, hK⟩
  · simpa using hs.cap
  · intro c hc b hb
    rcases List.mem_or_eq_of_mem_set hc with h1 | h1
    · exact hs.wf c h1 b hb
    · subst h1
      exact hwf2 hwf b hb
  · intro j hj k1 hk1
    change least_sig hash s k1 = j
    simp only [tableAt_set] at hk1
    by_cases hij : i = j ∧ i < s.table.length
    · rw [if_pos hij] at hk1
      have := hperm.subset hk1
      rw [hkeys] at this
      simp only [List.mem_cons] at this
      rcases this with rfl | h2
      · rw [hidef]
        exact hij.1
      · rw [← hij.1]
        exact hs.idx i hi k1 h2
    · rw [if_neg hij] at hk1
      exact hs.idx j hj k1 hk1
  · exact hK.nodup_iff.2 (List.nodup_cons.2 ⟨hk, hs.nodup⟩)

theorem redistributeSlots_spec (N : Nat) (hN : 1 ≤ N) (hash : Key → Nat)
    (es : List (Element Key)) (s : ADS_set Key) (hs : Shape N hash s)
    (hnd : (slotKeys es).Nodup) (hdis : ∀ k ∈ slotKeys es, k ∉ keys s) :
    Shape N hash (redistributeSlots N hash es s) ∧
    (keys (redistributeSlots N hash es s)).Perm (slotKeys es ++ keys s) ∧
    SameParams s (redistributeSlots N hash es s) := by
  induction es generalizing s with
  | nil => exact ⟨hs, by simp [redistributeSlots, slotKeys_nil], SameParams.refl s⟩
  | cons e es ih =>
    rw [redistributeSlots]
    rw [slotKeys_cons] at hnd hdis
    by_cases hu : e.used = true
    · simp only [hu, if_true] at hnd hdis ⊢
      obtain ⟨h1, h2⟩ := insert_chain_shape N hN hash s hs e.key (hdis e.key (by simp))
      have hnd2 := (List.nodup_cons.1 hnd)
      obtain ⟨a, b, c⟩ := ih _ h1 hnd2.2 (by
        intro k hk hk2
        have := h2.subset hk2
        simp only [List.mem_cons] at this
        rcases this with rfl | h3
        · exact hnd2.1 hk
        · exact hdis k (by simp [hk]) h3)
      refine ⟨a, ?_, (insert_chain_params N s _ _).trans c⟩
      rw [slotKeys_cons, if_pos hu]
      refine b.trans ?_
      refine (h2.append_left _).trans ?_
      simp only [List.cons_append]
      exact List.perm_middle
    · simp only [hu, Bool.false_eq_true, if_false] at hnd hdis ⊢
      obtain ⟨a, b, c⟩ := ih s hs hnd hdis
      refine ⟨a, ?_, c⟩
      rw [slotKeys_cons]
      simpa [hu] using b

theorem redistribute_spec (N : Nat) (hN : 1 ≤ N) (hash : Key → Nat)
    (ch : Chain Key) (s : ADS_set Key) (hs : Shape N hash s)
    (hnd : (chainKeys ch).Nodup) (hdis : ∀ k ∈ chainKeys ch, k ∉ keys s) :
    Shape N hash (redistribute N hash ch s) ∧
    (keys (redistribute N hash ch s)).Perm (chainKeys ch ++ keys s) ∧
    SameParams s (redistribute N hash ch s) := by
  induction ch generalizing s with
  | nil => exact ⟨hs, by simp [redistribute, chainKeys_nil], SameParams.refl s⟩
  | cons b bs ih =>
    rw [redistribute]
    rw [chainKeys_cons] at hnd hdis
    obtain ⟨hn1, hn2, hn3⟩ := List.nodup_append.1 hnd
    obtain ⟨h1, h2, h3⟩ := redistributeSlots_spec N hN hash b.data s hs hn1
      (fun k hk => hdis k (by simp [hk]))
    obtain ⟨a, b1, c⟩ := ih _ h1 hn2 (by
      intro k hk hk2
      have := h2.subset hk2
      simp only [List.mem_append] at this
      rcases this with h4 | h4
      · exact hn3 h4 hk
      · exact hdis k (by simp [hk]) h4)
    refine ⟨a, ?_, h3.trans c⟩
    rw [chainKeys_cons]
    refine b1.trans ?_
    refine (h2.append_left _).trans ?_
    rw [← List.append_assoc]
    exact List.Perm.append_right _ List.perm_append_comm

/-! ### The split step -/

theorem rehash_eq (N : Nat) (hash : Key → Nat) (s : ADS_set Key) :
    rehash N hash s =
      if s.rehashing then s
      else { redistribute N hash (tableAt s.table s.nextToSplit) (rehash_prep N s) with
              rehashing := false } := by
  unfold rehash rehash_prep
  by_cases h : s.rehashing = true
  · simp [h]
  · by_cases hw : s.nextToSplit + 1 ≥ 1 <<< s.d
    · simp [h, hw]
    · simp [h, hw]

theorem rehash_prep_dir (N : Nat) (hash : Key → Nat) (s : ADS_set Key) (hs : Shape N hash s) :
    (rehash_prep N s).table.take (s.tableSize + 1) =
      (s.table.take s.tableSize).set s.nextToSplit [] ++ [[newBucket N]] ∧
    (rehash_prep N s).table.length = 2 ^ ((rehash_prep N s).d + 1) ∧
    (∀ c ∈ (rehash_prep N s).table, ∀ b ∈ c, b.data.length = N) := by
  have hl := hs.size_lt
  have hcap := hs.cap
  have hts := hs.ts
  have hnts := hs.nts
  have hwf0 : ∀ c ∈ s.table.set s.nextToSplit [], ∀ b ∈ c, b.data.length = N := by
    intro c hc b hb
    rcases List.mem_or_eq_of_mem_set hc with h1 | h1
    · exact hs.wf c h1 b hb
    · subst h1
      simp at hb
  have hnb : ∀ b ∈ [(newBucket N : Bucket Key)], b.data.length = N := by
    intro b hb
    simp only [List.mem_singleton] at hb
    subst hb
    simp [newBucket]
  unfold rehash_prep
  simp only [Nat.one_shiftLeft]
  by_cases hw : s.nextToSplit + 1 ≥ 2 ^ s.d
  · simp only [if_pos hw]
    have hA : ((s.table.set s.nextToSplit []).take s.tableSize).length = s.tableSize := by
      simp
      omega
    have hm : 2 ^ (s.d + 1 + 1) - s.tableSize = (2 ^ (s.d + 1 + 1) - s.tableSize - 1) + 1 := by
      have : 2 ^ (s.d + 1 + 1) = 2 * 2 ^ (s.d + 1) := by rw [pow_succ]; ring
      omega
    rw [List.set_append_right _ _ (by rw [hA]), hA, Nat.sub_self, hm, List.replicate_succ,
      List.set_cons_zero]
    refine ⟨?_, ?_, ?_⟩
    · have := @List.take_append _ ((s.table.set s.nextToSplit []).take s.tableSize)
        ([newBucket N] :: List.replicate (2 ^ (s.d + 1 + 1) - s.tableSize - 1) []) 1
      rw [hA] at this
      rw [this, List.set_take]
      simp
    · simp only [List.length_append, hA, List.length_cons, List.length_replicate]
      have : 2 ^ (s.d + 1 + 1) = 2 * 2 ^ (s.d + 1) := by rw [pow_succ]; ring
      omega
    · intro c hc b hb
      simp only [List.mem_append, List.mem_cons, List.mem_replicate] at hc
      rcases hc with h1 | h1 | h1
      · exact hwf0 c (List.mem_of_mem_take h1) b hb
      · subst h1
        exact hnb b hb
      · rw [h1.2] at hb
        simp at hb
  · simp only [if_neg hw]
    refine ⟨?_, ?_, ?_⟩
    · rw [List.take_succ, List.set_take, List.set_take,
        List.set_eq_of_length_le (by simp), List.getElem?_set_self (by simpa using hl)]
      simp
    · simpa using hcap
    · intro c hc b hb
      rcases List.mem_or_eq_of_mem_set hc with h1 | h1
      · exact hwf0 c h1 b hb
      · subst h1
        exact hnb b hb

theorem rehash_prep_keys (N : Nat) (hash : Key → Nat) (s : ADS_set Key) (hs : Shape N hash s) :
    keys (rehash_prep N s) =
      ((s.table.take s.tableSize).take s.nextToSplit).flatMap chainKeys ++
      ((s.table.take s.tableSize).drop (s.nextToSplit + 1)).flatMap chainKeys := by
  have hl := hs.size_lt
  have hts := hs.ts
  have hnts := hs.nts
  have h1 : keys (rehash_prep N s) =
      ((rehash_prep N s).table.take (s.tableSize + 1)).flatMap chainKeys := rfl
  rw [h1, (rehash_prep_dir N hash s hs).1, List.flatMap_append,
    flatMap_set _ _ (by simp; omega)]
  simp [chainKeys_nil, chainKeys_cons, newBucket_keys]

theorem rehash_prep_tableAt (N : Nat) (hash : Key → Nat) (s : ADS_set Key) (hs : Shape N hash s)
    (j : Nat) (hj : j < s.tableSize + 1) :
    chainKeys (tableAt (rehash_prep N s).table j) =
      if j = s.nextToSplit ∨ j = s.tableSize then [] else chainKeys (tableAt s.table j) := by
  have hl := hs.size_lt
  have hts := hs.ts
  rw [← tableAt_take _ (s.tableSize + 1) j hj, (rehash_prep_dir N hash s hs).1]
  by_cases hT : j = s.tableSize
  · subst hT
    simp only [or_true, if_true]
    unfold tableAt
    rw [List.getD_eq_getElem?_getD, List.getElem?_append_right (by simp)]
    have : s.tableSize - ((s.table.take s.tableSize).set s.nextToSplit []).length = 0 := by
      simp
      omega
    rw [this]
    simp [chainKeys_cons, newBucket_keys, chainKeys_nil]
  · have hj2 : j < s.tableSize := by omega
    have : tableAt ((s.table.take s.tableSize).set s.nextToSplit [] ++ [[newBucket N]]) j =
        tableAt ((s.table.take s.tableSize).set s.nextToSplit []) j := by
      unfold tableAt
      rw [List.getD_eq_getElem?_getD, List.getD_eq_getElem?_getD,
        List.getElem?_append_left (by simp; omega)]
    rw [this, tableAt_set, tableAt_take _ _ _ hj2]
    by_cases hp : s.nextToSplit = j
    · subst hp
      have hl2 : s.nextToSplit < s.table.length := by omega
      simp [hj2, hl2, chainKeys_nil]
    · have hp2 : ¬ j = s.nextToSplit := fun h => hp h.symm
      simp [hp, hp2, hT]

theorem rehash_prep_least_sig (N : Nat) (hash : Key → Nat) (s : ADS_set Key) (k : Key) :
    least_sig hash (rehash_prep N s) k =
      lsig (hash k) (if s.nextToSplit + 1 ≥ 2 ^ s.d then s.d + 1 else s.d)
        (if s.nextToSplit + 1 ≥ 2 ^ s.d then 0 else s.nextToSplit + 1) := by
  rw [least_sig_eq]
  unfold rehash_prep
  simp only [Nat.one_shiftLeft]

theorem rehash_prep_shape (N : Nat) (hash : Key → Nat) (s : ADS_set Key) (hs : Shape N hash s) :
    Shape N hash (rehash_prep N s) := by
  have hts := hs.ts
  have hnts := hs.nts
  have hdir := rehash_prep_dir N hash s hs
  refine ⟨hdir.2.1, ?_, ?_, ?_, hdir.2.2, ?_, ?_⟩
  · unfold rehash_prep
    simp only [Nat.one_shiftLeft]
    by_cases hw : s.nextToSplit + 1 ≥ 2 ^ s.d
    · simp only [if_pos hw]
      rw [pow_succ]
      omega
    · simp only [if_neg hw]
      omega
  · unfold rehash_prep
    simp only [Nat.one_shiftLeft]
    by_cases hw : s.nextToSplit + 1 ≥ 2 ^ s.d
    · simp only [if_pos hw]
      positivity
    · simp only [if_neg hw]
      omega
  · unfold rehash_prep
    simp only [Nat.one_shiftLeft]
    have := hs.dpos
    by_cases hw : s.nextToSplit + 1 ≥ 2 ^ s.d
    · simp only [if_pos hw]
      omega
    · simp only [if_neg hw]
      omega
  · intro j hj k hk
    have hj2 : j < s.tableSize + 1 := hj
    rw [rehash_prep_tableAt N hash s hs j hj2] at hk
    by_cases hc : j = s.nextToSplit ∨ j = s.tableSize
    · rw [if_pos hc] at hk
      simp at hk
    · rw [if_neg hc] at hk
      have hj3 : j < s.tableSize := by omega
      have h1 := hs.idx j hj3 k hk
      rw [rehash_prep_least_sig, ← h1, least_sig_eq]
      apply lsig_step_ne _ _ _ hnts
      rw [← least_sig_eq, h1]
      exact fun h => hc (Or.inl h)
  · rw [rehash_prep_keys N hash s hs]
    have h1 := hs.nodup
    rw [keys_split s s.nextToSplit (by omega) (Nat.le_of_lt hs.size_lt)] at h1
    refine h1.sublist ?_
    rw [List.append_assoc]
    exact List.Sublist.append (List.Sublist.refl _) (List.sublist_append_right _ _)

theorem rehash_spec (N : Nat) (hN : 1 ≤ N) (hash : Key → Nat) (s : ADS_set Key)
    (hs : Shape N hash s) (hr : s.rehashing = false) :
    Shape N hash (rehash N hash s) ∧ (keys (rehash N hash s)).Perm (keys s) ∧
    (rehash N hash s).rehashing = false ∧ (rehash N hash s).current_size = s.current_size ∧
    (rehash N hash s).tableSize = s.tableSize + 1 := by
  have hts := hs.ts
  have hnts := hs.nts
  have hsplit := keys_split s s.nextToSplit (by omega) (Nat.le_of_lt hs.size_lt)
  have hnd := hs.nodup
  rw [hsplit, List.append_assoc] at hnd
  obtain ⟨hnd1, hnd23, hdis1⟩ := List.nodup_append.1 hnd
  obtain ⟨hnd2, hnd3, hdis2⟩ := List.nodup_append.1 hnd23
  have hprep := rehash_prep_shape N hash s hs
  obtain ⟨h1, h2, h3⟩ := redistribute_spec N hN hash (tableAt s.table s.nextToSplit)
    (rehash_prep N s) hprep hnd2 (by
      intro k hk hk2
      rw [rehash_prep_keys N hash s hs, List.mem_append] at hk2
      rcases hk2 with h | h
      · exact hdis1 h (List.mem_append_left _ hk)
      · exact hdis2 hk h)
  rw [rehash_eq, hr, if_neg Bool.false_ne_true]
  refine ⟨⟨h1.cap, h1.ts, h1.nts, h1.dpos, h1.wf, h1.idx, h1.nodup⟩, ?_, rfl, ?_, ?_⟩
  · change (keys (redistribute N hash (tableAt s.table s.nextToSplit) (rehash_prep N s))).Perm _
    refine h2.trans ?_
    rw [rehash_prep_keys N hash s hs, hsplit, List.append_assoc, ← List.append_assoc,
      ← List.append_assoc]
    exact List.Perm.append_right _ List.perm_append_comm
  · exact h3.2.2.2.2
  · exact h3.1

/-! ### Insert -/

theorem insert_internal_spec (N : Nat) (hN : 1 ≤ N) (hash : Key → Nat) (s : ADS_set Key)
    (hs : Shape N hash s) (hr : s.rehashing = false) (k : Key) (hk : k ∉ keys s) :
    Shape N hash (insert_internal N hash s (least_sig hash s k) k) ∧
    (keys (insert_internal N hash s (least_sig hash s k) k)).Perm (k :: keys s) ∧
    (insert_internal N hash s (least_sig hash s k) k).rehashing = false ∧
    (insert_internal N hash s (least_sig hash s k) k).current_size = s.current_size := by
  obtain ⟨h1, h2⟩ := insert_chain_shape N hN hash s hs k hk
  have h3 := insert_chain_params N s (least_sig hash s k) k
  unfold insert_internal
  simp only
  by_cases ho : (insert_chain N s (least_sig hash s k) k).2 = true
  · have hr2 : (insert_chain N s (least_sig hash s k) k).1.rehashing = false := h3.2.2.2.1.trans hr
    rw [ho, hr2]
    simp only [Bool.not_false, Bool.and_self, if_true]
    obtain ⟨a, b, c, d, _⟩ := rehash_spec N hN hash _ h1 hr2
    exact ⟨a, b.trans h2, c, d.trans h3.2.2.2.2⟩
  · simp only [ho, Bool.false_and, Bool.false_eq_true, if_false]
    exact ⟨h1, h2, h3.2.2.2.1.trans hr, h3.2.2.2.2⟩

theorem containsAt_fst (s : ADS_set Key) (k : Key) (i : Nat) :
    (containsAt s k i).1 = (locate k (tableAt s.table i) 0).isSome := by
  unfold containsAt
  cases locate k (tableAt s.table i) 0 <;> rfl

theorem contains_iff {N : Nat} {hash : Key → Nat} {s : ADS_set Key} (hs : Shape N hash s)
    (k : Key) : contains hash s k = true ↔ k ∈ keys s := by
  unfold contains
  rw [locate_isSome, hs.mem_keys_iff]

theorem insert_fst (N : Nat) (hash : Key → Nat) (s : ADS_set Key) (k : Key) :
    (insert N hash s k).1 =
      if contains hash s k then s
      else { insert_internal N hash s (least_sig hash s k) k with
              current_size := (insert_internal N hash s (least_sig hash s k) k).current_size + 1 } := by
  unfold insert contains
  simp only [containsAt_fst]
  cases h : (locate k (tableAt s.table (least_sig hash s k)) 0).isSome
  · simp only [Bool.not_false, if_true, Bool.false_eq_true, if_false]
    split <;> rfl
  · simp

theorem insert_old (N : Nat) (hash : Key → Nat) (s : ADS_set Key) (hs : Inv N hash s) (k : Key)
    (hk : k ∈ keys s) : (insert N hash s k).1 = s := by
  rw [insert_fst, if_pos ((contains_iff hs.shape k).2 hk)]

theorem insert_new (N : Nat) (hN : 1 ≤ N) (hash : Key → Nat) (s : ADS_set Key)
    (hs : Inv N hash s) (k : Key) (hk : k ∉ keys s) :
    Inv N hash (insert N hash s k).1 ∧ (keys (insert N hash s k).1).Perm (k :: keys s) ∧
    (insert N hash s k).1.current_size = s.current_size + 1 := by
  have hc : ¬ contains hash s k = true := fun h => hk ((contains_iff hs.shape k).1 h)
  rw [insert_fst, if_neg hc]
  obtain ⟨a, b, c, d⟩ := insert_internal_spec N hN hash s hs.shape hs.idle k hk
  refine ⟨⟨⟨a.cap, a.ts, a.nts, a.dpos, a.wf, a.idx, a.nodup⟩, ?_, c⟩, b, ?_⟩
  · change _ + 1 = (keys (insert_internal N hash s (least_sig hash s k) k)).length
    rw [b.length_eq, d, hs.cnt]
    simp
  · change _ + 1 = _
    rw [d]

theorem insert_inv (N : Nat) (hN : 1 ≤ N) (hash : Key → Nat) (s : ADS_set Key)
    (hs : Inv N hash s) (k : Key) : Inv N hash (insert N hash s k).1 := by
  by_cases hk : k ∈ keys s
  · rw [insert_old N hash s hs k hk]
    exact hs
  · exact (insert_new N hN hash s hs k hk).1

/-! ### Erase -/

theorem erase_fst (hash : Key → Nat) (s : ADS_set Key) (k : Key) :
    (erase hash s k).1 =
      if contains hash s k then
        { s with
          table := s.table.set (least_sig hash s k)
            (eraseChain k (tableAt s.table (least_sig hash s k)))
          current_size := s.current_size - 1 }
      else s := by
  unfold erase
  cases contains hash s k <;> simp

theorem erase_snd (hash : Key → Nat) (s : ADS_set Key) (k : Key) :
    (erase hash s k).2 = if contains hash s k then 1 else 0 := by
  unfold erase
  cases contains hash s k <;> simp

theorem erase_spec (N : Nat) (hash : Key → Nat) (s : ADS_set Key) (hs : Inv N hash s) (k : Key) :
    Inv N hash (erase hash s k).1 ∧ keys (erase hash s k).1 = (keys s).erase k := by
  rw [erase_fst]
  by_cases hc : contains hash s k = true
  · rw [if_pos hc]
    have hk := (contains_iff hs.shape k).1 hc
    have hi := hs.shape.least_sig_lt k
    have hl := hs.shape.size_lt
    have hk2 := (hs.shape.mem_keys_iff k).1 hk
    generalize least_sig hash s k = i at hi hk2 ⊢
    obtain ⟨e1, e2⟩ := eraseChain_spec k (tableAt s.table i)
    have hnd := hs.shape.nodup
    have hsplit := keys_split s i hi (Nat.le_of_lt hl)
    rw [hsplit, List.append_assoc] at hnd
    obtain ⟨_, _, hdis1⟩ := List.nodup_append.1 hnd
    have hK : keys { s with table := s.table.set i (eraseChain k (tableAt s.table i)),
                            current_size := s.current_size - 1 } = (keys s).erase k := by
      have : keys { s with table := s.table.set i (eraseChain k (tableAt s.table i)),
                            current_size := s.current_size - 1 } =
          keys { s with table := s.table.set i (eraseChain k (tableAt s.table i)) } := rfl
      rw [this, keys_set s i hi (Nat.le_of_lt hl), hsplit, e1, List.append_assoc,
        List.append_assoc,
        List.erase_append_right _ (fun h => hdis1 h (List.mem_append_left _ hk2)),
        List.erase_append_left _ hk2]
    refine ⟨⟨⟨?_, hs.shape.ts, hs.shape.nts, hs.shape.dpos, ?_, ?_, ?_⟩, ?_, hs.idle⟩, hK⟩
    · simpa using hs.shape.cap
    · intro c hc1 b hb
      rcases List.mem_or_eq_of_mem_set hc1 with h1 | h1
      · exact hs.shape.wf c h1 b hb
      · subst h1
        by_cases h0 : tableAt s.table i = []
        · rw [h0] at hb
          simp [eraseChain] at hb
        · exact e2 N (hs.shape.wf _ (tableAt_mem _ _ h0)) b hb
    · intro j hj k1 hk1
      change least_sig hash s k1 = j
      simp only [tableAt_set] at hk1
      by_cases hij : i = j ∧ i < s.table.length
      · rw [if_pos hij, e1] at hk1
        rw [← hij.1]
        exact hs.shape.idx i hi k1 (List.mem_of_mem_erase hk1)
      · rw [if_neg hij] at hk1
        exact hs.shape.idx j hj k1 hk1
    · rw [hK]
      exact hs.shape.nodup.erase k
    · change s.current_size - 1 = _
      rw [hK, List.length_erase_of_mem hk, hs.cnt]
  · rw [if_neg hc]
    have hk : k ∉ keys s := fun h => hc ((contains_iff hs.shape k).2 h)
    exact ⟨hs, (List.erase_of_not_mem hk).symm⟩

/-! ### Reachable states -/

theorem init_keys (N : Nat) : keys (init N : ADS_set Key) = [] := by
  simp [keys, init, chainKeys_cons, chainKeys_nil, newBucket_keys]

theorem init_inv (N : Nat) (hash : Key → Nat) : Inv N hash (init N : ADS_set Key) := by
  refine ⟨⟨rfl, rfl, by simp [init], by simp [init], ?_, ?_, ?_⟩, ?_, rfl⟩
  · intro c hc b hb
    simp only [init, List.mem_cons, List.mem_singleton, List.not_mem_nil, or_false] at hc
    rcases hc with rfl | rfl | rfl | rfl
    · simp only [List.mem_singleton] at hb
      subst hb
      simp [newBucket]
    · simp only [List.mem_singleton] at hb
      subst hb
      simp [newBucket]
    · simp at hb
    · simp at hb
  · intro i hi k hk
    have : k ∈ keys (init N : ADS_set Key) :=
      (mem_keys _ (by simp [init]) k).2 ⟨i, hi, hk⟩
    rw [init_keys] at this
    simp at this
  · rw [init_keys]
    exact List.nodup_nil
  · rw [init_keys]
    rfl

theorem clear_eq_init (N : Nat) (s : ADS_set Key) (h : s.rehashing = false) :
    clear N s = init N := by
  unfold clear init
  rw [h]

theorem step_inv (N : Nat) (hN : 1 ≤ N) (hash : Key → Nat) (s : ADS_set Key)
    (hs : Inv N hash s) (op : Op Key) : Inv N hash (step N hash s op) := by
  cases op with
  | insert k => exact insert_inv N hN hash s hs k
  | erase k => exact (erase_spec N hash s hs k).1
  | clear =>
    change Inv N hash (clear N s)
    rw [clear_eq_init N s hs.idle]
    exact init_inv N hash

theorem Reachable.inv {N : Nat} (hN : 1 ≤ N) {hash : Key → Nat} {s : ADS_set Key}
    (h : Reachable N hash s) : Inv N hash s := by
  induction h with
  | init => exact init_inv N hash
  | step s op _ ih => exact step_inv N hN hash s ih op

theorem run_append (N : Nat) (hash : Key → Nat) (ops : List (Op Key)) (op : Op Key) :
    run N hash (ops ++ [op]) = step N hash (run N hash ops) op := by
  simp [run, List.foldl_append]

theorem run_reachable (N : Nat) (hash : Key → Nat) (ops : List (Op Key)) :
    Reachable N hash (run N hash ops) := by
  induction ops using List.reverseRecOn with
  | nil => exact Reachable.init
  | append_singleton ops op ih =>
    rw [run_append]
    exact Reachable.step _ op ih

/-! ### Iterators on used cells -/

theorem end_eq (s : ADS_set Key) : end_ s = ⟨s.tableSize, 0, none⟩ := by
  simp [end_, mkIterator, moveToNextValid]

theorem deref_end (s : ADS_set Key) : deref s (end_ s) = none := by
  rw [end_eq]
  rfl

theorem Valid.ne_end {s : ADS_set Key} {it : iterator} (h : Valid s it) : it ≠ end_ s := by
  intro e
  have := h.1
  rw [e, end_eq] at this
  exact Nat.lt_irrefl _ this

theorem scanSlots_used (es : List (Element Key)) (e : Element Key) (i : Nat)
    (h : es[i]? = some e) (hu : e.used = true) : scanSlots (es.drop i) i = some i := by
  have hi : i < es.length := by
    by_contra hc
    rw [List.getElem?_eq_none (Nat.le_of_not_lt hc)] at h
    exact Option.noConfusion h
  rw [List.drop_eq_getElem_cons hi, scanSlots]
  have : es[i] = e := by
    rw [List.getElem?_eq_getElem hi] at h
    exact Option.some.inj h
  rw [this, if_pos hu]

theorem moveToNextValid_valid (s : ADS_set Key) (it : iterator) (h : Valid s it) :
    moveToNextValid s it = it := by
  obtain ⟨h1, c, b, e, h2, h3, h4, h5⟩ := h
  cases it with
  | mk ti bi cb =>
    simp only at h1 h2 h3 h4
    subst h2
    unfold moveToNextValid
    simp only [h1, if_true, Option.getD_some]
    have hc : c < (tableAt s.table ti).length := by
      by_contra hc
      rw [List.getElem?_eq_none (Nat.le_of_not_lt hc)] at h3
      exact Option.noConfusion h3
    have hb : (tableAt s.table ti)[c] = b := by
      rw [List.getElem?_eq_getElem hc] at h3
      exact Option.some.inj h3
    rw [List.drop_eq_getElem_cons hc, scanChain, hb, scanSlots_used b.data e bi h4 h5]

theorem locate_valid (s : ADS_set Key) (k : Key) (ti c i : Nat) (hti : ti < s.tableSize)
    (h : locate k (tableAt s.table ti) 0 = some (c, i)) :
    Valid s ⟨ti, i, some c⟩ ∧ deref s ⟨ti, i, some c⟩ = some k := by
  obtain ⟨_, b, e, h1, h2, h3, h4⟩ := locate_some k (tableAt s.table ti) 0 c i h
  simp only [Nat.sub_zero] at h1
  refine ⟨⟨hti, c, b, e, rfl, h1, h2, h3⟩, ?_⟩
  unfold deref
  simp only [h1, h2, Option.map_some', h4]

theorem find_mem {N : Nat} {hash : Key → Nat} {s : ADS_set Key} (hs : Shape N hash s) (k : Key)
    (hk : k ∈ keys s) :
    Valid s (find hash s k) ∧ deref s (find hash s k) = some k ∧
      (find hash s k).tableIndex = least_sig hash s k := by
  have h1 := (hs.mem_keys_iff k).1 hk
  rw [← locate_isSome k _ 0] at h1
  unfold find
  simp only
  cases hl : locate k (tableAt s.table (least_sig hash s k)) 0 with
  | none => rw [hl] at h1; exact absurd h1 (by simp)
  | some r =>
    obtain ⟨c, i⟩ := r
    obtain ⟨v, d⟩ := locate_valid s k _ c i (hs.least_sig_lt k) hl
    simp only [mkIterator]
    rw [moveToNextValid_valid s _ v]
    exact ⟨v, d, rfl⟩

theorem find_not_mem {N : Nat} {hash : Key → Nat} {s : ADS_set Key} (hs : Shape N hash s)
    (k : Key) (hk : k ∉ keys s) : find hash s k = end_ s := by
  have h1 : k ∉ chainKeys (tableAt s.table (least_sig hash s k)) :=
    fun h => hk ((hs.mem_keys_iff k).2 h)
  rw [← locate_eq_none k _ 0] at h1
  unfold find
  simp only [h1]

theorem find_iff {N : Nat} {hash : Key → Nat} {s : ADS_set Key} (hs : Shape N hash s) (k : Key) :
    (find hash s k ≠ end_ s ∧ deref s (find hash s k) = some k) ↔ k ∈ keys s := by
  constructor
  · rintro ⟨h1, _⟩
    by_contra hk
    exact h1 (find_not_mem hs k hk)
  · intro hk
    obtain ⟨v, d, _⟩ := find_mem hs k hk
    exact ⟨v.ne_end, d⟩

theorem insert_snd_new (N : Nat) (hash : Key → Nat) (s : ADS_set Key) (k : Key)
    (hc : contains hash s k = false) :
    (insert N hash s k).2 =
      (find hash (insert N hash s k).1 k,
        (locate k (tableAt (insert N hash s k).1.table
          (least_sig hash (insert N hash s k).1 k)) 0).isSome) := by
  have h1 : (insert N hash s k).1 = _ := insert_fst N hash s k
  rw [hc] at h1
  simp only [Bool.false_eq_true, if_false] at h1
  rw [h1]
  unfold insert find
  unfold contains at hc
  simp only [containsAt_fst, hc, Bool.not_false, if_true]
  split <;> simp_all

theorem insert_snd_old (N : Nat) (hash : Key → Nat) (s : ADS_set Key) (k : Key)
    (hc : contains hash s k = true) :
    (insert N hash s k).2 = (find hash s k, false) := by
  unfold insert find
  unfold contains at hc
  simp only [containsAt_fst, hc, Bool.not_true, Bool.false_eq_true, if_false]
  unfold containsAt
  cases h : locate k (tableAt s.table (least_sig hash s k)) 0 with
  | none => rw [h] at hc; exact absurd hc (by simp)
  | some r => rfl

theorem mem_keys_insert (N : Nat) (hN : 1 ≤ N) (hash : Key → Nat) (s : ADS_set Key)
    (hs : Inv N hash s) (k x : Key) :
    x ∈ keys (insert N hash s k).1 ↔ x = k ∨ x ∈ keys s := by
  by_cases hk : k ∈ keys s
  · rw [insert_old N hash s hs k hk]
    constructor
    · exact fun h => Or.inr h
    · rintro (rfl | h)
      · exact hk
      · exact h
  · rw [(insert_new N hN hash s hs k hk).2.1.mem_iff]
    simp

theorem mem_keys_erase (N : Nat) (hash : Key → Nat) (s : ADS_set Key)
    (hs : Inv N hash s) (k x : Key) :
    x ∈ keys (erase hash s k).1 ↔ x ≠ k ∧ x ∈ keys s := by
  rw [(erase_spec N hash s hs k).2]
  exact hs.shape.nodup.mem_erase_iff

theorem chain_occupied (c : Chain Key) :
    (c.map (fun b => (b.data.filter (fun e => e.used)).length)).sum = (chainKeys c).length := by
  induction c with
  | nil => rfl
  | cons b bs ih =>
    rw [chainKeys_cons, List.length_append, List.map_cons, List.sum_cons, ih]
    simp [slotKeys]

theorem dir_occupied (D : List (Chain Key)) :
    (D.map (fun c => (c.map (fun b => (b.data.filter (fun e => e.used)).length)).sum)).sum =
      (D.flatMap chainKeys).length := by
  induction D with
  | nil => rfl
  | cons c cs ih =>
    rw [List.flatMap_cons, List.length_append, List.map_cons, List.sum_cons, ih, chain_occupied]

theorem occupiedSlots_eq (s : ADS_set Key) : occupiedSlots s = (keys s).length :=
  dir_occupied _

/-! ### Iteration -/

theorem chainKeysFrom_zero (ch : Chain Key) : chainKeysFrom ch 0 = chainKeys ch := by
  cases ch with
  | nil => rfl
  | cons b bs => simp [chainKeysFrom, chainKeys_cons]

theorem scanSlots_none (es : List (Element Key)) (i : Nat) (h : scanSlots es i = none) :
    slotKeys es = [] := by
  induction es generalizing i with
  | nil => rfl
  | cons e es ih =>
    rw [scanSlots] at h
    by_cases hu : e.used = true
    · rw [if_pos hu] at h
      exact Option.noConfusion h
    · rw [if_neg hu] at h
      rw [slotKeys_cons, if_neg hu]
      exact ih (i + 1) h

theorem scanSlots_some (es : List (Element Key)) (i j : Nat) (h : scanSlots es i = some j) :
    i ≤ j ∧ ∃ e, es[j - i]? = some e ∧ e.used = true ∧
      slotKeys es = e.key :: slotKeys (es.drop (j - i + 1)) := by
  induction es generalizing i with
  | nil => simp [scanSlots] at h
  | cons e es ih =>
    rw [scanSlots] at h
    by_cases hu : e.used = true
    · rw [if_pos hu] at h
      simp only [Option.some.injEq] at h
      subst h
      refine ⟨le_refl _, e, by simp, hu, ?_⟩
      rw [slotKeys_cons, if_pos hu]
      simp
    · rw [if_neg hu] at h
      obtain ⟨h1, e1, h2, h3, h4⟩ := ih (i + 1) h
      have hji : j - i = (j - (i + 1)) + 1 := by omega
      refine ⟨by omega, e1, ?_, h3, ?_⟩
      · rw [hji]
        simpa using h2
      · rw [slotKeys_cons, if_neg hu, h4, hji]
        simp

theorem scanSlots_drop (data : List (Element Key)) (bi j : Nat)
    (h : scanSlots (data.drop bi) bi = some j) :
    bi ≤ j ∧ ∃ e, data[j]? = some e ∧ e.used = true ∧
      slotKeys (data.drop bi) = e.key :: slotKeys (data.drop (j + 1)) := by
  obtain ⟨h1, e, h2, h3, h4⟩ := scanSlots_some _ _ _ h
  refine ⟨h1, e, ?_, h3, ?_⟩
  · rw [List.getElem?_drop] at h2
    have : bi + (j - bi) = j := by omega
    rwa [this] at h2
  · rw [h4, List.drop_drop]
    have : bi + (j - bi + 1) = j + 1 := by omega
    rw [this]

theorem scanChain_none (ch : Chain Key) (c bi bi1 : Nat) (h : scanChain ch c bi = (none, bi1)) :
    chainKeysFrom ch bi = [] ∧ (ch = [] → bi1 = bi) ∧ (ch ≠ [] → bi1 = 0) := by
  induction ch generalizing c bi with
  | nil =>
    simp only [scanChain, Prod.mk.injEq, true_and] at h
    exact ⟨rfl, fun _ => h.symm, fun hc => absurd rfl hc⟩
  | cons b bs ih =>
    rw [scanChain] at h
    cases hs : scanSlots (b.data.drop bi) bi with
    | some j => rw [hs] at h; simp at h
    | none =>
      rw [hs] at h
      simp only at h
      obtain ⟨a1, a2, a3⟩ := ih (c + 1) 0 h
      refine ⟨?_, fun hc => by simp at hc, fun _ => ?_⟩
      · rw [chainKeysFrom, scanSlots_none _ _ hs, ← chainKeysFrom_zero, a1]
        rfl
      · by_cases hb : bs = []
        · exact a2 hb
        · exact a3 hb

theorem scanChain_some (ch : Chain Key) (c bi c1 i x : Nat)
    (h : scanChain ch c bi = (some (c1, i), x)) :
    c ≤ c1 ∧ ∃ b e, ch[c1 - c]? = some b ∧ b.data[i]? = some e ∧ e.used = true ∧
      chainKeysFrom ch bi = e.key :: chainKeysFrom (ch.drop (c1 - c)) (i + 1) := by
  induction ch generalizing c bi with
  | nil => simp [scanChain] at h
  | cons b bs ih =>
    rw [scanChain] at h
    cases hs : scanSlots (b.data.drop bi) bi with
    | some j =>
      rw [hs] at h
      simp only [Prod.mk.injEq, Option.some.injEq] at h
      obtain ⟨⟨rfl, rfl⟩, _⟩ := h
      obtain ⟨_, e, h2, h3, h4⟩ := scanSlots_drop _ _ _ hs
      refine ⟨le_refl _, b, e, by simp, h2, h3, ?_⟩
      simp [chainKeysFrom, h4]
    | none =>
      rw [hs] at h
      simp only at h
      obtain ⟨h1, b1, e, h2, h3, h4, h5⟩ := ih (c + 1) 0 h
      have hcc : c1 - c = (c1 - (c + 1)) + 1 := by omega
      refine ⟨by omega, b1, e, ?_, h3, h4, ?_⟩
      · rw [hcc]
        simpa using h2
      · rw [chainKeysFrom, scanSlots_none _ _ hs, ← chainKeysFrom_zero, h5, hcc]
        simp

theorem scanTable_spec (rest : List (Chain Key)) (ti : Nat) :
    (rest.flatMap chainKeys = [] ∧ scanTable rest ti 0 = ⟨ti + rest.length, 0, none⟩) ∨
    ∃ m ch c i b e, scanTable rest ti 0 = ⟨ti + m, i, some c⟩ ∧ rest[m]? = some ch ∧
      ch[c]? = some b ∧ b.data[i]? = some e ∧ e.used = true ∧
      rest.flatMap chainKeys =
        e.key :: (chainKeysFrom (ch.drop c) (i + 1) ++ (rest.drop (m + 1)).flatMap chainKeys) := by
  induction rest generalizing ti with
  | nil => left; exact ⟨rfl, rfl⟩
  | cons ch rest ih =>
    rw [scanTable]
    rcases hsc : scanChain ch 0 0 with ⟨r, bi1⟩
    cases r with
    | some ci =>
      obtain ⟨c, i⟩ := ci
      right
      obtain ⟨_, b, e, h2, h3, h4, h5⟩ := scanChain_some ch 0 0 c i bi1 hsc
      simp only [Nat.sub_zero] at h2 h5
      refine ⟨0, ch, c, i, b, e, rfl, by simp, h2, h3, h4, ?_⟩
      rw [List.flatMap_cons, ← chainKeysFrom_zero, h5]
      simp
    | none =>
      obtain ⟨a1, a2, a3⟩ := scanChain_none ch 0 0 bi1 hsc
      have hb : bi1 = 0 := by
        by_cases hc : ch = []
        · exact a2 hc
        · exact a3 hc
      subst hb
      rw [chainKeysFrom_zero] at a1
      simp only
      rcases ih (ti + 1) with ⟨h1, h2⟩ | ⟨m, ch1, c, i, b, e, h1, h2, h3, h4, h5, h6⟩
      · left
        refine ⟨by rw [List.flatMap_cons, a1, h1]; rfl, ?_⟩
        rw [h2]
        simp only [List.length_cons, iterator.mk.injEq, and_true]
        omega
      · right
        refine ⟨m + 1, ch1, c, i, b, e, ?_, by simpa using h2, h3, h4, h5, ?_⟩
        · rw [h1]
          simp only [iterator.mk.injEq, and_true]
          omega
        · rw [List.flatMap_cons, a1, h6]
          simp

theorem moveToNextValid_spec (s : ADS_set Key) (hl : s.tableSize ≤ s.table.length)
    (it : iterator) (hti : it.tableIndex < s.tableSize)
    (hbi : it.bucketIndex = 0 ∨
      (tableAt s.table it.tableIndex).drop (it.currentBucket.getD 0) ≠ []) :
    At s (moveToNextValid s it) (remKeys s it) := by
  cases it with
  | mk ti bi cb =>
    simp only at hti hbi
    unfold moveToNextValid remKeys
    simp only [hti, if_true]
    generalize hcdef : cb.getD 0 = c at hbi
    rcases hsc : scanChain ((tableAt s.table ti).drop c) c bi with ⟨r, bi1⟩
    cases r with
    | some ci =>
      obtain ⟨c1, i⟩ := ci
      obtain ⟨h1, b, e, h2, h3, h4, h5⟩ := scanChain_some _ c bi c1 i bi1 hsc
      rw [List.getElem?_drop] at h2
      rw [List.drop_drop] at h5
      have hcc : c + (c1 - c) = c1 := by omega
      rw [hcc] at h2 h5
      right
      refine ⟨e.key, _, by rw [h5]; rfl, ⟨hti, c1, b, e, rfl, h2, h3, h4⟩, ?_, rfl⟩
      unfold deref
      simp only [h2, h3, Option.map_some']
    | none =>
      obtain ⟨a1, a2, a3⟩ := scanChain_none _ c bi bi1 hsc
      have hb : bi1 = 0 := by
        by_cases hc : (tableAt s.table ti).drop c = []
        · rw [a2 hc]
          rcases hbi with h | h
          · exact h
          · exact absurd hc h
        · exact a3 hc
      subst hb
      simp only [a1, List.nil_append]
      rcases scanTable_spec ((s.table.take s.tableSize).drop (ti + 1)) (ti + 1) with
        ⟨h1, h2⟩ | ⟨m, ch1, c2, i, b, e, h1, h2, h3, h4, h5, h6⟩
      · left
        refine ⟨h1, ?_⟩
        rw [h2, end_eq]
        simp only [List.length_drop, List.length_take, iterator.mk.injEq, and_true]
        omega
      · right
        rw [List.getElem?_drop, List.getElem?_take] at h2
        have hlt : ti + 1 + m < s.tableSize := by
          by_contra hc
          rw [if_neg hc] at h2
          exact Option.noConfusion h2
        rw [if_pos hlt] at h2
        have hta : tableAt s.table (ti + 1 + m) = ch1 := by
          unfold tableAt
          rw [List.getD_eq_getElem?_getD, h2]
          rfl
        rw [h1]
        refine ⟨e.key, _, h6, ⟨hlt, c2, b, e, rfl, by rw [hta]; exact h3, h4, h5⟩, ?_, ?_⟩
        · unfold deref
          simp only [hta, h3, h4, Option.map_some']
        · unfold remKeys
          simp only [Option.getD_some, hta, List.drop_drop]
          rfl

theorem remKeys_begin (s : ADS_set Key) (h0 : 0 < s.tableSize)
    (hl : s.tableSize ≤ s.table.length) : remKeys s ⟨0, 0, none⟩ = keys s := by
  unfold remKeys
  simp only [Option.getD_none, List.drop_zero, chainKeysFrom_zero, Nat.zero_add]
  rw [keys_split s 0 h0 hl]
  simp

theorem begin_at (s : ADS_set Key) (h0 : 0 < s.tableSize) (hl : s.tableSize ≤ s.table.length) :
    At s (begin s) (keys s) := by
  have := moveToNextValid_spec s hl ⟨0, 0, none⟩ h0 (Or.inl rfl)
  rw [remKeys_begin s h0 hl] at this
  exact this

theorem next_at (s : ADS_set Key) (hl : s.tableSize ≤ s.table.length) (it : iterator)
    (k : Key) (L : List Key) (h : At s it (k :: L)) : At s (next s it) L := by
  rcases h with ⟨h, _⟩ | ⟨k1, L1, h1, hv, _, h3⟩
  · exact absurd h (by simp)
  · simp only [List.cons.injEq] at h1
    obtain ⟨_, rfl⟩ := h1
    obtain ⟨hti, c, b, e, hc, hb, he, hu⟩ := hv
    have := moveToNextValid_spec s hl { it with bucketIndex := it.bucketIndex + 1 } hti (by
      right
      simp only [hc, Option.getD_some]
      intro h0
      rw [List.drop_eq_nil_iff] at h0
      rw [List.getElem?_eq_none h0] at hb
      exact Option.noConfusion hb)
    rw [h3] at this
    exact this

theorem iter_at (s : ADS_set Key) (h0 : 0 < s.tableSize) (hl : s.tableSize ≤ s.table.length)
    (n : Nat) (hn : n ≤ (keys s).length) : At s (iter s n) ((keys s).drop n) := by
  induction n with
  | zero => exact begin_at s h0 hl
  | succ n ih =>
    have hlt : n < (keys s).length := by omega
    have h1 := ih (by omega)
    rw [List.drop_eq_getElem_cons hlt] at h1
    exact next_at s hl _ _ _ h1

theorem At.nil {s : ADS_set Key} {it : iterator} (h : At s it []) : it = end_ s := by
  rcases h with ⟨_, h⟩ | ⟨k, L, h, _⟩
  · exact h
  · exact absurd h (by simp)

theorem At.cons {s : ADS_set Key} {it : iterator} {k : Key} {L : List Key}
    (h : At s it (k :: L)) : Valid s it ∧ deref s it = some k := by
  rcases h with ⟨h, _⟩ | ⟨k1, L1, h1, hv, hd, _⟩
  · exact absurd h (by simp)
  · simp only [List.cons.injEq] at h1
    rw [h1.1]
    exact ⟨hv, hd⟩

theorem iter_spec (s : ADS_set Key) (h0 : 0 < s.tableSize) (hl : s.tableSize ≤ s.table.length) :
    iter s (keys s).length = end_ s ∧
    ∀ n, n < (keys s).length → iter s n ≠ end_ s ∧ deref s (iter s n) = (keys s)[n]? := by
  constructor
  · have := iter_at s h0 hl (keys s).length (le_refl _)
    rw [List.drop_length] at this
    exact this.nil
  · intro n hn
    have := iter_at s h0 hl n (by omega)
    rw [List.drop_eq_getElem_cons hn] at this
    obtain ⟨v, d⟩ := this.cons
    exact ⟨v.ne_end, by rw [d, List.getElem?_eq_getElem hn]⟩

/-! ### Equality of containers -/

theorem eqLoop_spec (hash : Key → Nat) (lhs rhs : ADS_set Key)
    (hl : lhs.tableSize ≤ lhs.table.length) (L : List Key) (it : iterator) (fuel : Nat)
    (h : At lhs it L) (hf : L.length < fuel) :
    eqLoop hash lhs rhs fuel it =
      some (L.all (fun k => decide (find hash rhs k ≠ end_ rhs))) := by
  induction L generalizing it fuel with
  | nil =>
    obtain ⟨f, rfl⟩ : ∃ f, fuel = f + 1 := ⟨fuel - 1, by omega⟩
    rw [eqLoop, if_pos h.nil]
    rfl
  | cons k L ih =>
    obtain ⟨f, rfl⟩ : ∃ f, fuel = f + 1 := ⟨fuel - 1, by omega⟩
    obtain ⟨v, d⟩ := h.cons
    rw [eqLoop, if_neg v.ne_end, d]
    simp only [List.all_cons]
    by_cases hfind : find hash rhs k = end_ rhs
    · simp [hfind]
    · rw [if_neg hfind, ih (next lhs it) f (next_at lhs hl it k L h)
        (by simp only [List.length_cons] at hf; omega)]
      simp [hfind]

theorem subset_antisymm_of_length {l1 l2 : List Key} (h1 : l1.Nodup)
    (hlen : l2.length ≤ l1.length) (hsub : l1 ⊆ l2) : l1.Perm l2 :=
  (List.subperm_of_subset h1 hsub).perm_of_length_le hlen

theorem operator_eq_spec (N : Nat) (hash : Key → Nat) (a b : ADS_set Key)
    (ha : Inv N hash a) (hb : Inv N hash b) (fuel : Nat) (hf : size a < fuel) :
    ∃ r, operator_eq hash fuel a b = some r ∧ (r = true ↔ ∀ k, k ∈ keys a ↔ k ∈ keys b) := by
  have hla := Nat.le_of_lt ha.shape.size_lt
  have h0 : 0 < a.tableSize := by
    rw [ha.shape.ts]
    have : 0 < 2 ^ a.d := by positivity
    omega
  unfold operator_eq
  by_cases hs : size a ≠ size b
  · rw [if_pos hs]
    refine ⟨false, rfl, ?_⟩
    constructor
    · intro h
      exact absurd h (by simp)
    · intro hall
      exfalso
      apply hs
      unfold size
      rw [ha.cnt, hb.cnt]
      exact ((List.perm_ext_iff_of_nodup ha.shape.nodup hb.shape.nodup).2 hall).length_eq
  · rw [if_neg hs]
    have hs2 : size a = size b := by
      by_contra h
      exact hs h
    unfold size at hs2 hf
    rw [ha.cnt] at hf
    rw [eqLoop_spec hash a b hla (keys a) (begin a) fuel (begin_at a h0 hla) hf]
    refine ⟨_, rfl, ?_⟩
    rw [List.all_eq_true]
    constructor
    · intro hall
      have hsub : keys a ⊆ keys b := by
        intro k hk
        have := hall k hk
        rw [decide_eq_true_iff] at this
        by_contra hc
        exact this (find_not_mem hb.shape k hc)
      have hp := subset_antisymm_of_length ha.shape.nodup
        (by rw [← ha.cnt, ← hb.cnt, hs2]) hsub
      exact fun k => hp.mem_iff
    · intro hall k hk
      rw [decide_eq_true_iff]
      exact (find_mem hb.shape k ((hall k).1 hk)).1.ne_end

/-! ### Recomputing the depth -/

theorem set_d_loop_spec (d p : Nat) (hp : p < 2 ^ d) (fuel lc : Nat)
    (hlc : lc ≤ d + 1) (hlc2 : lc = d + 1 → p ≠ 0) (hf : d + 2 ≤ fuel + lc) :
    set_d_loop (2 ^ d + p) fuel lc = some (d, p) := by
  induction fuel generalizing lc with
  | zero => omega
  | succ f ih =>
    rw [set_d_loop]
    simp only [Nat.one_shiftLeft]
    by_cases hd : lc = d + 1
    · subst hd
      have : 2 ^ (d + 1) = 2 * 2 ^ d := by rw [pow_succ]; ring
      rw [if_pos (by omega)]
      simp
    · have hle : lc ≤ d := by omega
      have h1 : 2 ^ lc ≤ 2 ^ d := Nat.pow_le_pow_right (by norm_num) hle
      rw [if_neg (by omega)]
      by_cases he : 2 ^ lc = 2 ^ d + p
      · rw [if_pos he]
        have hp0 : p = 0 := by omega
        have : 2 ^ lc = 2 ^ d := by omega
        have := Nat.pow_right_injective (le_refl 2) this
        subst this
        rw [hp0]
      · rw [if_neg he]
        apply ih (lc + 1) (by omega) _ (by omega)
        intro hd2 hp0
        have : lc = d := by omega
        subst this
        exact he (by rw [hp0]; rfl)

theorem set_d_id {N : Nat} {hash : Key → Nat} {s : ADS_set Key} (hs : Shape N hash s) :
    set_d s = s := by
  unfold set_d
  have hlt : s.d < 2 ^ s.d := Nat.lt_two_pow s.d
  have h := set_d_loop_spec s.d s.nextToSplit hs.nts (s.tableSize + 1) 0 (by omega)
    (by intro h; omega) (by rw [hs.ts]; omega)
  rw [← hs.ts] at h
  rw [h]

/-! ### Copies -/

theorem copySlots_spec (N : Nat) (hN : 1 ≤ N) (hash : Key → Nat) (es : List (Element Key))
    (s : ADS_set Key) (hs : Inv N hash s) :
    Inv N hash (copySlots N hash es s) ∧
    ∀ x, x ∈ keys (copySlots N hash es s) ↔ x ∈ slotKeys es ∨ x ∈ keys s := by
  induction es generalizing s with
  | nil => exact ⟨hs, by simp [copySlots, slotKeys_nil]⟩
  | cons e es ih =>
    rw [copySlots, slotKeys_cons]
    by_cases hu : e.used = true
    · simp only [hu, if_true]
      obtain ⟨a, b⟩ := ih _ (insert_inv N hN hash s hs e.key)
      refine ⟨a, fun x => ?_⟩
      rw [b, mem_keys_insert N hN hash s hs]
      simp only [List.mem_cons]
      tauto
    · simp only [hu, Bool.false_eq_true, if_false]
      exact ih s hs

theorem copyChain_spec (N : Nat) (hN : 1 ≤ N) (hash : Key → Nat) (ch : Chain Key)
    (s : ADS_set Key) (hs : Inv N hash s) :
    Inv N hash (copyChain N hash ch s) ∧
    ∀ x, x ∈ keys (copyChain N hash ch s) ↔ x ∈ chainKeys ch ∨ x ∈ keys s := by
  induction ch generalizing s with
  | nil => exact ⟨hs, by simp [copyChain, chainKeys_nil]⟩
  | cons b bs ih =>
    rw [copyChain, chainKeys_cons]
    obtain ⟨h1, h2⟩ := copySlots_spec N hN hash b.data s hs
    obtain ⟨a, b1⟩ := ih _ h1
    refine ⟨a, fun x => ?_⟩
    rw [b1, h2]
    simp only [List.mem_append]
    tauto

theorem copyTable_spec (N : Nat) (hN : 1 ≤ N) (hash : Key → Nat) (D : List (Chain Key))
    (s : ADS_set Key) (hs : Inv N hash s) :
    Inv N hash (copyTable N hash D s) ∧
    ∀ x, x ∈ keys (copyTable N hash D s) ↔ x ∈ D.flatMap chainKeys ∨ x ∈ keys s := by
  induction D generalizing s with
  | nil => exact ⟨hs, by simp [copyTable]⟩
  | cons c cs ih =>
    rw [copyTable, List.flatMap_cons]
    obtain ⟨h1, h2⟩ := copyChain_spec N hN hash c s hs
    obtain ⟨a, b1⟩ := ih _ h1
    refine ⟨a, fun x => ?_⟩
    rw [b1, h2]
    simp only [List.mem_append]
    tauto

theorem copy_spec (N : Nat) (hN : 1 ≤ N) (hash : Key → Nat) (other : ADS_set Key) :
    Inv N hash (copy N hash other) ∧ ∀ x, x ∈ keys (copy N hash other) ↔ x ∈ keys other := by
  obtain ⟨h1, h2⟩ := copyTable_spec N hN hash (other.table.take other.tableSize) (init N)
    (init_inv N hash)
  unfold copy
  rw [set_d_id h1.shape]
  refine ⟨h1, fun x => ?_⟩
  rw [h2, init_keys]
  simp [keys]

/-! ### Sequences of calls -/

theorem specRun_append (ops : List (Op Key)) (op : Op Key) :
    specRun (ops ++ [op]) = specStep (specRun ops) op := by
  simp [specRun, List.foldl_append]

theorem mem_keys_run (N : Nat) (hN : 1 ≤ N) (hash : Key → Nat) (ops : List (Op Key)) (k : Key) :
    k ∈ keys (run N hash ops) ↔ k ∈ specRun ops := by
  induction ops using List.reverseRecOn with
  | nil => simp [run, specRun, init_keys]
  | append_singleton ops op ih =>
    have hinv := (run_reachable N hash ops).inv hN
    rw [run_append, specRun_append]
    cases op with
    | insert x =>
      change k ∈ keys (insert N hash (run N hash ops) x).1 ↔ k ∈ Insert.insert x (specRun ops)
      rw [mem_keys_insert N hN hash _ hinv, Finset.mem_insert, ih]
    | erase x =>
      change k ∈ keys (erase hash (run N hash ops) x).1 ↔ k ∈ (specRun ops).erase x
      rw [mem_keys_erase N hash _ hinv, Finset.mem_erase, ih]
    | clear =>
      change k ∈ keys (clear N (run N hash ops)) ↔ k ∈ (∅ : Finset Key)
      rw [clear_eq_init N _ hinv.idle, init_keys]
      simp

theorem ofList_foldl (N : Nat) (hN : 1 ≤ N) (hash : Key → Nat) (l : List Key)
    (s : ADS_set Key) (hs : Inv N hash s) :
    Inv N hash (l.foldl (fun s key => (insert N hash s key).1) s) ∧
    ∀ x, x ∈ keys (l.foldl (fun s key => (insert N hash s key).1) s) ↔ x ∈ l ∨ x ∈ keys s := by
  induction l generalizing s with
  | nil => exact ⟨hs, by simp⟩
  | cons a l ih =>
    rw [List.foldl_cons]
    obtain ⟨h1, h2⟩ := ih _ (insert_inv N hN hash s hs a)
    refine ⟨h1, fun x => ?_⟩
    rw [h2, mem_keys_insert N hN hash s hs]
    simp only [List.mem_cons]
    tauto

theorem ofList_spec (N : Nat) (hN : 1 ≤ N) (hash : Key → Nat) (l : List Key) :
    Inv N hash (ofList N hash l) ∧ (∀ x, x ∈ keys (ofList N hash l) ↔ x ∈ l) ∧
    size (ofList N hash l) = l.dedup.length := by
  obtain ⟨h1, h2⟩ := ofList_foldl N hN hash l (init N) (init_inv N hash)
  have h3 : ∀ x, x ∈ keys (ofList N hash l) ↔ x ∈ l := by
    intro x
    unfold ofList
    rw [h2, init_keys]
    simp
  refine ⟨h1, h3, ?_⟩
  unfold size
  have h4 : (ofList N hash l).current_size = (keys (ofList N hash l)).length := h1.cnt
  rw [h4]
  apply List.Perm.length_eq
  have h5 : (keys (ofList N hash l)).Nodup := h1.shape.nodup
  rw [List.perm_ext_iff_of_nodup h5 (List.nodup_dedup l)]
  intro x
  rw [h3, List.mem_dedup]

/-! ### The contract of the public interface -/

/-- C1: for every bucket capacity `N ≥ 1`, hash function, reachable state and key `k`
that is not stored, `insert(k)` returns the flag `true` and an iterator that is not
`end()` and dereferences to `k`, and `size()` grows by exactly one (whether or not the
insert overflowed a chain and ran a split step). -/
theorem insert_new_key (N : Nat) (hN : 1 ≤ N) (hash : Key → Nat) (s : ADS_set Key)
    (hs : Reachable N hash s) (k : Key) (hk : k ∉ keys s) :
    (insert N hash s k).2.2 = true ∧
    (insert N hash s k).2.1 ≠ end_ (insert N hash s k).1 ∧
    deref (insert N hash s k).1 (insert N hash s k).2.1 = some k ∧
    size (insert N hash s k).1 = size s + 1 := by
  have hinv := hs.inv hN
  obtain ⟨h1, h2, h3⟩ := insert_new N hN hash s hinv k hk
  have hc : contains hash s k = false := by
    cases h : contains hash s k
    · rfl
    · exact absurd ((contains_iff hinv.shape k).1 h) hk
  have hmem : k ∈ keys (insert N hash s k).1 := h2.mem_iff.2 (by simp)
  obtain ⟨v, d, _⟩ := find_mem h1.shape k hmem
  rw [insert_snd_new N hash s k hc]
  refine ⟨?_, v.ne_end, d, h3⟩
  exact (locate_isSome k _ 0).2 ((h1.shape.mem_keys_iff k).1 hmem)

/-- Witness of C1 with `N = 1`: after `insert(0)`, the call `insert(2)` overflows the
chain of entry 0 and runs a split step. -/
theorem insert_new_key_witness :
    (insert 1 id (run 1 id [Op.insert 0]) 2).2.2 = true ∧
    (insert 1 id (run 1 id [Op.insert 0]) 2).2.1 ≠ end_ (insert 1 id (run 1 id [Op.insert 0]) 2).1 ∧
    deref (insert 1 id (run 1 id [Op.insert 0]) 2).1 (insert 1 id (run 1 id [Op.insert 0]) 2).2.1
      = some 2 ∧
    size (insert 1 id (run 1 id [Op.insert 0]) 2).1 = size (run 1 id [Op.insert 0]) + 1 :=
  insert_new_key 1 (by decide) id (run 1 id [Op.insert 0]) (run_reachable 1 id _) 2 (by decide)

/-- C2: for every reachable state and stored key `k`, `insert(k)` returns the flag
`false` and an iterator that dereferences to `k`, and the whole state is unchanged;
hence a container built from a list of keys has as many elements as the list has
distinct keys. -/
theorem insert_existing_key (N : Nat) (hN : 1 ≤ N) (hash : Key → Nat) (s : ADS_set Key)
    (hs : Reachable N hash s) (k : Key) (hk : k ∈ keys s) :
    (insert N hash s k).2.2 = false ∧
    deref s (insert N hash s k).2.1 = some k ∧
    (insert N hash s k).1 = s ∧
    ∀ l : List Key, size (ofList N hash l) = l.dedup.length := by
  have hinv := hs.inv hN
  have hc := (contains_iff hinv.shape k).2 hk
  rw [insert_snd_old N hash s k hc]
  exact ⟨rfl, (find_mem hinv.shape k hk).2.1, insert_old N hash s hinv k hk,
    fun l => (ofList_spec N hN hash l).2.2⟩

/-- Witness of C2 with `N = 3`: the keys 1, 2, 3 are stored and `insert(1)` is repeated. -/
theorem insert_existing_key_witness :
    (insert 3 id (run 3 id [Op.insert 1, Op.insert 2, Op.insert 3]) 1).2.2 = false ∧
    deref (run 3 id [Op.insert 1, Op.insert 2, Op.insert 3])
      (insert 3 id (run 3 id [Op.insert 1, Op.insert 2, Op.insert 3]) 1).2.1 = some 1 ∧
    (insert 3 id (run 3 id [Op.insert 1, Op.insert 2, Op.insert 3]) 1).1 =
      run 3 id [Op.insert 1, Op.insert 2, Op.insert 3] ∧
    ∀ l : List Nat, size (ofList 3 id l) = l.dedup.length :=
  insert_existing_key 3 (by decide) id (run 3 id [Op.insert 1, Op.insert 2, Op.insert 3])
    (run_reachable 3 id _) 1 (by decide)

/-- C3: for every `N ≥ 1`, hash function and sequence of insert, erase and clear calls
on an empty container, `find(k)` returns a non-end iterator that dereferences to `k`
exactly when `k` is in the mathematical set obtained by the same calls. -/
theorem find_iff_spec (N : Nat) (hN : 1 ≤ N) (hash : Key → Nat) (ops : List (Op Key))
    (k : Key) :
    (find hash (run N hash ops) k ≠ end_ (run N hash ops) ∧
      deref (run N hash ops) (find hash (run N hash ops) k) = some k) ↔ k ∈ specRun ops := by
  rw [find_iff ((run_reachable N hash ops).inv hN).shape k, mem_keys_run N hN hash ops k]

/-- Witness of C3: `N = 3`, the keys 1 .. 20 inserted, the key 13 looked up. -/
theorem find_iff_spec_witness :
    (find id (run 3 id ((List.range' 1 20).map Op.insert)) 13 ≠
        end_ (run 3 id ((List.range' 1 20).map Op.insert)) ∧
      deref (run 3 id ((List.range' 1 20).map Op.insert))
        (find id (run 3 id ((List.range' 1 20).map Op.insert)) 13) = some 13) ↔
      13 ∈ specRun ((List.range' 1 20).map Op.insert) :=
  find_iff_spec 3 (by decide) id ((List.range' 1 20).map Op.insert) 13

/-- C4: for every reachable state and key `k`, stored or not, after `erase(k)` the
call `find(k)` returns `end()` and `count(k)` returns 0. -/
theorem erase_then_find (N : Nat) (hN : 1 ≤ N) (hash : Key → Nat) (s : ADS_set Key)
    (hs : Reachable N hash s) (k : Key) :
    find hash (erase hash s k).1 k = end_ (erase hash s k).1 ∧
    count hash (erase hash s k).1 k = 0 := by
  have hinv := hs.inv hN
  obtain ⟨h1, _⟩ := erase_spec N hash s hinv k
  have hk : k ∉ keys (erase hash s k).1 := by
    rw [mem_keys_erase N hash s hinv]
    exact fun h => h.1 rfl
  refine ⟨find_not_mem h1.shape k hk, ?_⟩
  unfold count
  rw [if_neg (fun h => hk ((contains_iff h1.shape k).1 h))]

/-- Witness of C4: scenario B, `N = 3`, the keys 1 .. 20 inserted, then `erase(5)`. -/
theorem erase_then_find_witness :
    find id (erase id (run 3 id ((List.range' 1 20).map Op.insert)) 5).1 5 =
      end_ (erase id (run 3 id ((List.range' 1 20).map Op.insert)) 5).1 ∧
    count id (erase id (run 3 id ((List.range' 1 20).map Op.insert)) 5).1 5 = 0 :=
  erase_then_find 3 (by decide) id (run 3 id ((List.range' 1 20).map Op.insert))
    (run_reachable 3 id _) 5

/-- C5: for every reachable state and key `k`, `erase(k)` returns 1 and decreases
`size()` by exactly one when `k` is stored, returns 0 and leaves the whole state
unchanged when `k` is not stored, and returns no other value. -/
theorem erase_result (N : Nat) (hN : 1 ≤ N) (hash : Key → Nat) (s : ADS_set Key)
    (hs : Reachable N hash s) (k : Key) :
    (k ∈ keys s → (erase hash s k).2 = 1 ∧ size (erase hash s k).1 + 1 = size s) ∧
    (k ∉ keys s → (erase hash s k).2 = 0 ∧ (erase hash s k).1 = s) ∧
    ((erase hash s k).2 = 0 ∨ (erase hash s k).2 = 1) := by
  have hinv := hs.inv hN
  obtain ⟨h1, h2⟩ := erase_spec N hash s hinv k
  refine ⟨fun hk => ?_, fun hk => ?_, ?_⟩
  · have hc := (contains_iff hinv.shape k).2 hk
    refine ⟨by rw [erase_snd, if_pos hc], ?_⟩
    unfold size
    rw [h1.cnt, h2, hinv.cnt, List.length_erase_of_mem hk]
    have : 0 < (keys s).length := List.length_pos_of_mem hk
    omega
  · have hc : ¬ contains hash s k = true := fun h => hk ((contains_iff hinv.shape k).1 h)
    exact ⟨by rw [erase_snd, if_neg hc], by rw [erase_fst, if_neg hc]⟩
  · rw [erase_snd]
    by_cases hc : contains hash s k = true
    · right; rw [if_pos hc]
    · left; rw [if_neg hc]

/-- Witness of C5 with `N = 1` on the state holding the keys 0 and 2. -/
theorem erase_result_witness :
    (2 ∈ keys (run 1 id [Op.insert 0, Op.insert 2]) →
      (erase id (run 1 id [Op.insert 0, Op.insert 2]) 2).2 = 1 ∧
      size (erase id (run 1 id [Op.insert 0, Op.insert 2]) 2).1 + 1 =
        size (run 1 id [Op.insert 0, Op.insert 2])) ∧
    (2 ∉ keys (run 1 id [Op.insert 0, Op.insert 2]) →
      (erase id (run 1 id [Op.insert 0, Op.insert 2]) 2).2 = 0 ∧
      (erase id (run 1 id [Op.insert 0, Op.insert 2]) 2).1 =
        run 1 id [Op.insert 0, Op.insert 2]) ∧
    ((erase id (run 1 id [Op.insert 0, Op.insert 2]) 2).2 = 0 ∨
      (erase id (run 1 id [Op.insert 0, Op.insert 2]) 2).2 = 1) :=
  erase_result 1 (by decide) id (run 1 id [Op.insert 0, Op.insert 2]) (run_reachable 1 id _) 2

theorem Inv.tableSize_pos {N : Nat} {hash : Key → Nat} {s : ADS_set Key} (h : Inv N hash s) :
    0 < s.tableSize := by
  rw [h.shape.ts]
  have : 0 < 2 ^ s.d := by positivity
  omega

theorem Inv.iteration {N : Nat} {hash : Key → Nat} {s : ADS_set Key} (h : Inv N hash s) :
    iter s (size s) = end_ s ∧
    (∀ n, n < size s → iter s n ≠ end_ s) ∧
    (List.range (size s)).map (fun n => deref s (iter s n)) = (keys s).map some := by
  obtain ⟨h1, h2⟩ := ADS_set.iter_spec s h.tableSize_pos (Nat.le_of_lt h.shape.size_lt)
  unfold size
  rw [h.cnt]
  refine ⟨h1, fun n hn => (h2 n hn).1, ?_⟩
  apply List.ext_getElem?
  intro n
  by_cases hn : n < (keys s).length
  · rw [List.getElem?_map, List.getElem?_range hn, List.getElem?_map]
    simp only [Option.map_some']
    rw [(h2 n hn).2, List.getElem?_eq_getElem hn]
    rfl
  · rw [List.getElem?_eq_none (by simpa using hn), List.getElem?_eq_none (by simpa using hn)]

/-- C6: for every reachable state, advancing the iterator from `begin()` reaches
`end()` after exactly `size()` steps and not before, and the keys dereferenced on the
way are the keys of the used cells in directory, chain and slot order: every stored
key once, no key twice; so after inserting `M` distinct keys the iteration yields
exactly `M` elements. -/
theorem iteration_complete (N : Nat) (hN : 1 ≤ N) (hash : Key → Nat) (s : ADS_set Key)
    (hs : Reachable N hash s) :
    iter s (size s) = end_ s ∧
    (∀ n, n < size s → iter s n ≠ end_ s) ∧
    (List.range (size s)).map (fun n => deref s (iter s n)) = (keys s).map some ∧
    (keys s).Nodup ∧
    (∀ k, k ∈ keys s ↔ find hash s k ≠ end_ s) ∧
    ∀ l : List Key, l.Nodup →
      iter (ofList N hash l) l.length = end_ (ofList N hash l) ∧
      ∀ n, n < l.length → iter (ofList N hash l) n ≠ end_ (ofList N hash l) := by
  have hinv := hs.inv hN
  obtain ⟨h1, h2, h3⟩ := hinv.iteration
  refine ⟨h1, h2, h3, hinv.shape.nodup, fun k => ?_, fun l hl => ?_⟩
  · constructor
    · exact fun hk => (find_mem hinv.shape k hk).1.ne_end
    · intro hf
      by_contra hk
      exact hf (find_not_mem hinv.shape k hk)
  · obtain ⟨a, _, c⟩ := ofList_spec N hN hash l
    obtain ⟨b1, b2, _⟩ := a.iteration
    rw [c, List.Nodup.dedup hl] at b1 b2
    exact ⟨b1, b2⟩

/-- Witness of C6: `N = 1`, the keys 0, 2, 4 inserted and 2 erased. -/
theorem iteration_complete_witness :
    iter (run 1 id [Op.insert 0, Op.insert 2, Op.insert 4, Op.erase 2])
        (size (run 1 id [Op.insert 0, Op.insert 2, Op.insert 4, Op.erase 2])) =
      end_ (run 1 id [Op.insert 0, Op.insert 2, Op.insert 4, Op.erase 2]) ∧
    (∀ n, n < size (run 1 id [Op.insert 0, Op.insert 2, Op.insert 4, Op.erase 2]) →
      iter (run 1 id [Op.insert 0, Op.insert 2, Op.insert 4, Op.erase 2]) n ≠
        end_ (run 1 id [Op.insert 0, Op.insert 2, Op.insert 4, Op.erase 2])) ∧
    (List.range (size (run 1 id [Op.insert 0, Op.insert 2, Op.insert 4, Op.erase 2]))).map
        (fun n => deref (run 1 id [Op.insert 0, Op.insert 2, Op.insert 4, Op.erase 2])
          (iter (run 1 id [Op.insert 0, Op.insert 2, Op.insert 4, Op.erase 2]) n)) =
      (keys (run 1 id [Op.insert 0, Op.insert 2, Op.insert 4, Op.erase 2])).map some ∧
    (keys (run 1 id [Op.insert 0, Op.insert 2, Op.insert 4, Op.erase 2])).Nodup ∧
    (∀ k, k ∈ keys (run 1 id [Op.insert 0, Op.insert 2, Op.insert 4, Op.erase 2]) ↔
      find id (run 1 id [Op.insert 0, Op.insert 2, Op.insert 4, Op.erase 2]) k ≠
        end_ (run 1 id [Op.insert 0, Op.insert 2, Op.insert 4, Op.erase 2])) ∧
    ∀ l : List Nat, l.Nodup →
      iter (ofList 1 id l) l.length = end_ (ofList 1 id l) ∧
      ∀ n, n < l.length → iter (ofList 1 id l) n ≠ end_ (ofList 1 id l) :=
  iteration_complete 1 (by decide) id
    (run 1 id [Op.insert 0, Op.insert 2, Op.insert 4, Op.erase 2]) (run_reachable 1 id _)

/-- C7: for every reachable container `s`, whatever its internal shape, the copy built
by the copy constructor compares equal to `s` in both directions, has the same
`size()` and holds exactly the keys of `s`. -/
theorem copy_equal (N : Nat) (hN : 1 ≤ N) (hash : Key → Nat) (s : ADS_set Key)
    (hs : Reachable N hash s) :
    (∀ fuel, size s < fuel →
      operator_eq hash fuel (copy N hash s) s = some true ∧
      operator_eq hash fuel s (copy N hash s) = some true) ∧
    size (copy N hash s) = size s ∧
    ∀ k, k ∈ keys (copy N hash s) ↔ k ∈ keys s := by
  have hinv := hs.inv hN
  obtain ⟨h1, h2⟩ := copy_spec N hN hash s
  have hsize : size (copy N hash s) = size s := by
    unfold size
    rw [h1.cnt, hinv.cnt]
    exact ((List.perm_ext_iff_of_nodup h1.shape.nodup hinv.shape.nodup).2 h2).length_eq
  refine ⟨fun fuel hf => ⟨?_, ?_⟩, hsize, h2⟩
  · obtain ⟨r, e, hr⟩ := operator_eq_spec N hash (copy N hash s) s h1 hinv fuel
      (by rw [hsize]; exact hf)
    rw [e, hr.2 h2]
  · obtain ⟨r, e, hr⟩ := operator_eq_spec N hash s (copy N hash s) hinv h1 fuel hf
    rw [e, hr.2 (fun k => (h2 k).symm)]

/-- Witness of C7: `N = 1`, a container with an overflow chain, an empty directory
entry and a tombstone. -/
theorem copy_equal_witness :
    (∀ fuel, size (run 1 id [Op.insert 0, Op.insert 2, Op.insert 4, Op.erase 2]) < fuel →
      operator_eq id fuel
        (copy 1 id (run 1 id [Op.insert 0, Op.insert 2, Op.insert 4, Op.erase 2]))
        (run 1 id [Op.insert 0, Op.insert 2, Op.insert 4, Op.erase 2]) = some true ∧
      operator_eq id fuel (run 1 id [Op.insert 0, Op.insert 2, Op.insert 4, Op.erase 2])
        (copy 1 id (run 1 id [Op.insert 0, Op.insert 2, Op.insert 4, Op.erase 2])) =
          some true) ∧
    size (copy 1 id (run 1 id [Op.insert 0, Op.insert 2, Op.insert 4, Op.erase 2])) =
      size (run 1 id [Op.insert 0, Op.insert 2, Op.insert 4, Op.erase 2]) ∧
    ∀ k, k ∈ keys (copy 1 id (run 1 id [Op.insert 0, Op.insert 2, Op.insert 4, Op.erase 2])) ↔
      k ∈ keys (run 1 id [Op.insert 0, Op.insert 2, Op.insert 4, Op.erase 2]) :=
  copy_equal 1 (by decide) id (run 1 id [Op.insert 0, Op.insert 2, Op.insert 4, Op.erase 2])
    (run_reachable 1 id _)

/-- C8: for two reachable containers with the same `N` and hash function, `a == b`
returns (its loop ends within `size(a) + 1` iterations) and is true exactly when `a`
and `b` store the same set of keys; so `==` is symmetric, and containers built from
the same keys in different orders compare equal. -/
theorem operator_eq_iff (N : Nat) (hN : 1 ≤ N) (hash : Key → Nat) (a b : ADS_set Key)
    (ha : Reachable N hash a) (hb : Reachable N hash b) (fuel : Nat) (hf : size a < fuel) :
    (∃ r, operator_eq hash fuel a b = some r ∧
      (r = true ↔ ∀ k, k ∈ keys a ↔ k ∈ keys b)) ∧
    (∀ fuel2, size b < fuel2 → operator_eq hash fuel2 b a = operator_eq hash fuel a b) ∧
    ∀ l1 l2 : List Key, l1.Perm l2 → ∀ fuel3, l1.length < fuel3 →
      operator_eq hash fuel3 (ofList N hash l1) (ofList N hash l2) = some true := by
  have hia := ha.inv hN
  have hib := hb.inv hN
  obtain ⟨r, e, hr⟩ := operator_eq_spec N hash a b hia hib fuel hf
  refine ⟨⟨r, e, hr⟩, fun fuel2 hf2 => ?_, fun l1 l2 hp fuel3 hf3 => ?_⟩
  · obtain ⟨r2, e2, hr2⟩ := operator_eq_spec N hash b a hib hia fuel2 hf2
    rw [e, e2]
    congr 1
    rw [Bool.eq_iff_iff, hr, hr2]
    exact ⟨fun h k => (h k).symm, fun h k => (h k).symm⟩
  · obtain ⟨i1, m1, c1⟩ := ofList_spec N hN hash l1
    obtain ⟨i2, m2, _⟩ := ofList_spec N hN hash l2
    obtain ⟨r3, e3, hr3⟩ := operator_eq_spec N hash _ _ i1 i2 fuel3 (by
      rw [c1]
      exact lt_of_le_of_lt (List.dedup_sublist l1).length_le hf3)
    rw [e3, hr3.2 (fun k => by rw [m1, m2]; exact hp.mem_iff)]

/-- Witness of C8: `N = 1`, the keys 0, 2, 4 inserted in two different orders. -/
theorem operator_eq_iff_witness :
    (∃ r, operator_eq id 4 (run 1 id [Op.insert 0, Op.insert 2, Op.insert 4])
        (run 1 id [Op.insert 4, Op.insert 2, Op.insert 0]) = some r ∧
      (r = true ↔ ∀ k, k ∈ keys (run 1 id [Op.insert 0, Op.insert 2, Op.insert 4]) ↔
        k ∈ keys (run 1 id [Op.insert 4, Op.insert 2, Op.insert 0]))) ∧
    (∀ fuel2, size (run 1 id [Op.insert 4, Op.insert 2, Op.insert 0]) < fuel2 →
      operator_eq id fuel2 (run 1 id [Op.insert 4, Op.insert 2, Op.insert 0])
          (run 1 id [Op.insert 0, Op.insert 2, Op.insert 4]) =
        operator_eq id 4 (run 1 id [Op.insert 0, Op.insert 2, Op.insert 4])
          (run 1 id [Op.insert 4, Op.insert 2, Op.insert 0])) ∧
    ∀ l1 l2 : List Nat, l1.Perm l2 → ∀ fuel3, l1.length < fuel3 →
      operator_eq id fuel3 (ofList 1 id l1) (ofList 1 id l2) = some true :=
  operator_eq_iff 1 (by decide) id (run 1 id [Op.insert 0, Op.insert 2, Op.insert 4])
    (run 1 id [Op.insert 4, Op.insert 2, Op.insert 0]) (run_reachable 1 id _)
    (run_reachable 1 id _) 4 (by decide)

/-- C9: for every reachable state, `clear()` gives the state of a default-constructed
container: `tableSize = 2`, `d = 1`, `nextToSplit = 0`, `size() = 0`, two directory
entries of one bucket each with `N` unused cells and no overflow; hence `count(k) = 0`
for every key. -/
theorem clear_state (N : Nat) (hN : 1 ≤ N) (hash : Key → Nat) (s : ADS_set Key)
    (hs : Reachable N hash s) :
    clear N s = init N ∧
    (clear N s).tableSize = 2 ∧ (clear N s).d = 1 ∧ (clear N s).nextToSplit = 0 ∧
    size (clear N s) = 0 ∧
    (clear N s).table.take (clear N s).tableSize = [[newBucket N], [newBucket N]] ∧
    (newBucket N : Bucket Key).data.length = N ∧
    (∀ e ∈ (newBucket N : Bucket Key).data, e.used = false) ∧
    ∀ k, count hash (clear N s) k = 0 := by
  have hinv := hs.inv hN
  have hc := clear_eq_init N s hinv.idle
  refine ⟨hc, rfl, rfl, rfl, rfl, rfl, by simp [newBucket], ?_, fun k => ?_⟩
  · intro e he
    simp only [newBucket, List.mem_replicate] at he
    rw [he.2]
  · rw [hc]
    unfold count
    rw [if_neg]
    intro h
    have := (contains_iff (init_inv N hash).shape k).1 h
    rw [init_keys] at this
    simp at this

/-- Witness of C9: `N = 3`, `clear()` after the keys 1 .. 20 were inserted. -/
theorem clear_state_witness :
    clear 3 (run 3 id ((List.range' 1 20).map Op.insert)) = init 3 ∧
    (clear 3 (run 3 id ((List.range' 1 20).map Op.insert))).tableSize = 2 ∧
    (clear 3 (run 3 id ((List.range' 1 20).map Op.insert))).d = 1 ∧
    (clear 3 (run 3 id ((List.range' 1 20).map Op.insert))).nextToSplit = 0 ∧
    size (clear 3 (run 3 id ((List.range' 1 20).map Op.insert))) = 0 ∧
    (clear 3 (run 3 id ((List.range' 1 20).map Op.insert))).table.take
        (clear 3 (run 3 id ((List.range' 1 20).map Op.insert))).tableSize =
      [[newBucket 3], [newBucket 3]] ∧
    (newBucket 3 : Bucket Nat).data.length = 3 ∧
    (∀ e ∈ (newBucket 3 : Bucket Nat).data, e.used = false) ∧
    ∀ k, count id (clear 3 (run 3 id ((List.range' 1 20).map Op.insert))) k = 0 :=
  clear_state 3 (by decide) id (run 3 id ((List.range' 1 20).map Op.insert))
    (run_reachable 3 id _)

/-- C10: in every reachable state `size()` is the number of used cells met by a
traversal of the chains of the directory entries `0 .. tableSize - 1`, and every
insert (with or without a split step), erase and clear keeps it so. -/
theorem size_counts_occupied (N : Nat) (hN : 1 ≤ N) (hash : Key → Nat) (s : ADS_set Key)
    (hs : Reachable N hash s) :
    size s = occupiedSlots s ∧
    ∀ op, size (step N hash s op) = occupiedSlots (step N hash s op) := by
  have hinv := hs.inv hN
  refine ⟨?_, fun op => ?_⟩
  · rw [occupiedSlots_eq]
    exact hinv.cnt
  · rw [occupiedSlots_eq]
    exact (step_inv N hN hash s hinv op).cnt

/-- Witness of C10: `N = 1`, the keys 0, 2, 4 inserted and 2 erased. -/
theorem size_counts_occupied_witness :
    size (run 1 id [Op.insert 0, Op.insert 2, Op.insert 4, Op.erase 2]) =
      occupiedSlots (run 1 id [Op.insert 0, Op.insert 2, Op.insert 4, Op.erase 2]) ∧
    ∀ op, size (step 1 id (run 1 id [Op.insert 0, Op.insert 2, Op.insert 4, Op.erase 2]) op) =
      occupiedSlots (step 1 id (run 1 id [Op.insert 0, Op.insert 2, Op.insert 4, Op.erase 2]) op) :=
  size_counts_occupied 1 (by decide) id
    (run 1 id [Op.insert 0, Op.insert 2, Op.insert 4, Op.erase 2]) (run_reachable 1 id _)

/-! ### Cells and keys -/

theorem slot_holding (data : List (Element Key)) (k : Key) :
    (data.filter (fun e => e.used && decide (e.key = k))).length = (slotKeys data).count k := by
  induction data with
  | nil => rfl
  | cons e es ih =>
    rw [slotKeys_cons]
    by_cases hu : e.used = true
    · by_cases hk : e.key = k
      · simp [List.filter_cons, hu, hk, ih]
      · simp [List.filter_cons, hu, hk, ih, List.count_cons]
    · simp [List.filter_cons, hu, ih]

theorem chain_holding (c : Chain Key) (k : Key) :
    (c.map (fun b => (b.data.filter (fun e => e.used && decide (e.key = k))).length)).sum =
      (chainKeys c).count k := by
  induction c with
  | nil => rfl
  | cons b bs ih =>
    rw [chainKeys_cons, List.count_append, List.map_cons, List.sum_cons, ih, slot_holding]

theorem dir_holding (D : List (Chain Key)) (k : Key) :
    (D.map (fun c => (c.map (fun b =>
      (b.data.filter (fun e => e.used && decide (e.key = k))).length)).sum)).sum =
      (D.flatMap chainKeys).count k := by
  induction D with
  | nil => rfl
  | cons c cs ih =>
    rw [List.flatMap_cons, List.count_append, List.map_cons, List.sum_cons, ih, chain_holding]

theorem slotsHolding_eq (s : ADS_set Key) (k : Key) : slotsHolding s k = (keys s).count k :=
  dir_holding _ k

theorem mem_chainKeys_of_cell (ch : Chain Key) (b : Bucket Key) (e : Element Key)
    (hb : b ∈ ch) (he : e ∈ b.data) (hu : e.used = true) : e.key ∈ chainKeys ch := by
  unfold chainKeys
  rw [List.mem_flatMap]
  refine ⟨b, hb, ?_⟩
  unfold slotKeys
  rw [List.mem_map]
  exact ⟨e, List.mem_filter.2 ⟨he, hu⟩, rfl⟩

theorem Shape.cell_index {N : Nat} {hash : Key → Nat} {s : ADS_set Key} (h : Shape N hash s)
    (i : Nat) (hi : i < s.tableSize) (b : Bucket Key) (hb : b ∈ tableAt s.table i)
    (e : Element Key) (he : e ∈ b.data) (hu : e.used = true) : least_sig hash s e.key = i :=
  h.idx i hi e.key (mem_chainKeys_of_cell _ b e hb he hu)

/-! ### States in which a split step starts -/

theorem SplitEntry.shape {N : Nat} (hN : 1 ≤ N) {hash : Key → Nat} {t : ADS_set Key}
    (h : SplitEntry N hash t) : Shape N hash t ∧ t.rehashing = false := by
  obtain ⟨s, k, hs, hk, _, rfl⟩ := h
  have hinv := hs.inv hN
  exact ⟨(insert_chain_shape N hN hash s hinv.shape k hk).1,
    (insert_chain_params N s _ k).2.2.2.1.trans hinv.idle⟩

theorem redistributeSlots_params (N : Nat) (hash : Key → Nat) (es : List (Element Key))
    (s : ADS_set Key) : SameParams s (redistributeSlots N hash es s) := by
  induction es generalizing s with
  | nil => exact SameParams.refl s
  | cons e es ih =>
    rw [redistributeSlots]
    by_cases hu : e.used = true
    · rw [if_pos hu]
      exact (insert_chain_params N s _ _).trans (ih _)
    · rw [if_neg hu]
      exact ih s

theorem redistribute_params (N : Nat) (hash : Key → Nat) (ch : Chain Key)
    (s : ADS_set Key) : SameParams s (redistribute N hash ch s) := by
  induction ch generalizing s with
  | nil => exact SameParams.refl s
  | cons b bs ih =>
    rw [redistribute]
    exact (redistributeSlots_params N hash b.data s).trans (ih _)

theorem rehash_params (N : Nat) (hash : Key → Nat) (t : ADS_set Key) (hr : t.rehashing = false) :
    (rehash N hash t).nextToSplit =
      (if t.nextToSplit + 1 ≥ 2 ^ t.d then 0 else t.nextToSplit + 1) ∧
    (rehash N hash t).d = (if t.nextToSplit + 1 ≥ 2 ^ t.d then t.d + 1 else t.d) ∧
    (rehash N hash t).tableSize = t.tableSize + 1 := by
  rw [rehash_eq, hr, if_neg Bool.false_ne_true]
  have h := redistribute_params N hash (tableAt t.table t.nextToSplit) (rehash_prep N t)
  refine ⟨?_, ?_, ?_⟩
  · change (redistribute N hash _ (rehash_prep N t)).nextToSplit = _
    rw [h.2.1]
    simp only [rehash_prep, Nat.one_shiftLeft]
  · change (redistribute N hash _ (rehash_prep N t)).d = _
    rw [h.2.2.1]
    simp only [rehash_prep, Nat.one_shiftLeft]
  · change (redistribute N hash _ (rehash_prep N t)).tableSize = _
    rw [h.1]
    rfl

theorem Shape.indexConsistent {N : Nat} {hash : Key → Nat} {s : ADS_set Key}
    (h : Shape N hash s) : IndexConsistent hash s :=
  fun i hi b hb e he hu => h.cell_index i hi b hb e he hu

theorem SplitEntry.rehash_shape {N : Nat} (hN : 1 ≤ N) {hash : Key → Nat} {t : ADS_set Key}
    (h : SplitEntry N hash t) : Shape N hash (rehash N hash t) :=
  (rehash_spec N hN hash t (h.shape hN).1 (h.shape hN).2).1

/-! ### Invariants of the directory -/

/-- C11: in every reachable state and for every key `k`, at most one used cell of the
whole structure (all directory entries, all buckets of their chains) holds `k`. -/
theorem key_unique (N : Nat) (hN : 1 ≤ N) (hash : Key → Nat) (s : ADS_set Key)
    (hs : Reachable N hash s) (k : Key) : slotsHolding s k ≤ 1 := by
  rw [slotsHolding_eq]
  exact List.nodup_iff_count_le_one.1 (hs.inv hN).shape.nodup k

/-- Witness of C11: `N = 1`, the keys 0, 2, 4 inserted, 2 erased and inserted again. -/
theorem key_unique_witness :
    slotsHolding (run 1 id [Op.insert 0, Op.insert 2, Op.insert 4, Op.erase 2, Op.insert 2]) 2
      ≤ 1 :=
  key_unique 1 (by decide) id
    (run 1 id [Op.insert 0, Op.insert 2, Op.insert 4, Op.erase 2, Op.insert 2])
    (run_reachable 1 id _) 2

/-- C12: in every reachable state every used cell in the chain of directory entry `i`
holds a key whose `least_sig` is `i`; the state after any insert, erase or clear has
the property again, and so has the state after a split step. -/
theorem index_consistent (N : Nat) (hN : 1 ≤ N) (hash : Key → Nat) (s : ADS_set Key)
    (hs : Reachable N hash s) :
    IndexConsistent hash s ∧
    (∀ op, IndexConsistent hash (step N hash s op)) ∧
    ∀ t, SplitEntry N hash t → IndexConsistent hash t ∧ IndexConsistent hash (rehash N hash t) := by
  have hinv := hs.inv hN
  refine ⟨hinv.shape.indexConsistent, fun op => (step_inv N hN hash s hinv op).shape.indexConsistent,
    fun t ht => ⟨(ht.shape hN).1.indexConsistent, (ht.rehash_shape hN).indexConsistent⟩⟩

/-- Witness of C12: `N = 1`, the keys 0, 2, 4 inserted. -/
theorem index_consistent_witness :
    IndexConsistent id (run 1 id [Op.insert 0, Op.insert 2, Op.insert 4]) ∧
    (∀ op, IndexConsistent id (step 1 id (run 1 id [Op.insert 0, Op.insert 2, Op.insert 4]) op)) ∧
    ∀ t, SplitEntry 1 id t → IndexConsistent id t ∧ IndexConsistent id (rehash 1 id t) :=
  index_consistent 1 (by decide) id (run 1 id [Op.insert 0, Op.insert 2, Op.insert 4])
    (run_reachable 1 id _)

/-- C13: in every reachable state and for every key, `least_sig(key)` is below
`tableSize`, which is within the allocated directory; this also holds in the state
in which `insert` computes the index a second time. -/
theorem least_sig_in_range (N : Nat) (hN : 1 ≤ N) (hash : Key → Nat) (s : ADS_set Key)
    (hs : Reachable N hash s) (k : Key) :
    least_sig hash s k < s.tableSize ∧ s.tableSize ≤ s.table.length ∧
    least_sig hash (insert N hash s k).1 k < (insert N hash s k).1.tableSize ∧
    (insert N hash s k).1.tableSize ≤ (insert N hash s k).1.table.length := by
  have hinv := hs.inv hN
  have h2 := insert_inv N hN hash s hinv k
  exact ⟨hinv.shape.least_sig_lt k, Nat.le_of_lt hinv.shape.size_lt,
    h2.shape.least_sig_lt k, Nat.le_of_lt h2.shape.size_lt⟩

/-- Witness of C13: `N = 3`, the keys 1 .. 20 inserted, the key 77 indexed. -/
theorem least_sig_in_range_witness :
    least_sig id (run 3 id ((List.range' 1 20).map Op.insert)) 77 <
      (run 3 id ((List.range' 1 20).map Op.insert)).tableSize ∧
    (run 3 id ((List.range' 1 20).map Op.insert)).tableSize ≤
      (run 3 id ((List.range' 1 20).map Op.insert)).table.length ∧
    least_sig id (insert 3 id (run 3 id ((List.range' 1 20).map Op.insert)) 77).1 77 <
      (insert 3 id (run 3 id ((List.range' 1 20).map Op.insert)) 77).1.tableSize ∧
    (insert 3 id (run 3 id ((List.range' 1 20).map Op.insert)) 77).1.tableSize ≤
      (insert 3 id (run 3 id ((List.range' 1 20).map Op.insert)) 77).1.table.length :=
  least_sig_in_range 3 (by decide) id (run 3 id ((List.range' 1 20).map Op.insert))
    (run_reachable 3 id _) 77

/-- C15: in every reachable state `nextToSplit < 2^d` and `d ≥ 1`; a split step
advances `nextToSplit` by one and, when that reaches `2^d`, resets it to 0 and
increments `d`. -/
theorem cursor_bounds (N : Nat) (hN : 1 ≤ N) (hash : Key → Nat) (s : ADS_set Key)
    (hs : Reachable N hash s) :
    0 ≤ s.nextToSplit ∧ s.nextToSplit < 2 ^ s.d ∧ 1 ≤ s.d ∧
    ∀ t, SplitEntry N hash t →
      (rehash N hash t).nextToSplit =
        (if t.nextToSplit + 1 = 2 ^ t.d then 0 else t.nextToSplit + 1) ∧
      (rehash N hash t).d = (if t.nextToSplit + 1 = 2 ^ t.d then t.d + 1 else t.d) ∧
      (rehash N hash t).nextToSplit < 2 ^ (rehash N hash t).d := by
  have hinv := hs.inv hN
  refine ⟨Nat.zero_le _, hinv.shape.nts, hinv.shape.dpos, fun t ht => ?_⟩
  obtain ⟨h1, h2⟩ := ht.shape hN
  obtain ⟨a, b, _⟩ := rehash_params N hash t h2
  have hnts := h1.nts
  have e : (t.nextToSplit + 1 ≥ 2 ^ t.d) ↔ (t.nextToSplit + 1 = 2 ^ t.d) := by
    constructor <;> intro h <;> omega
  simp only [e] at a b
  exact ⟨a, b, (ht.rehash_shape hN).nts⟩

/-- Witness of C15: `N = 1`, the keys 0, 2, 4 inserted (two split steps, one wrap). -/
theorem cursor_bounds_witness :
    0 ≤ (run 1 id [Op.insert 0, Op.insert 2, Op.insert 4]).nextToSplit ∧
    (run 1 id [Op.insert 0, Op.insert 2, Op.insert 4]).nextToSplit <
      2 ^ (run 1 id [Op.insert 0, Op.insert 2, Op.insert 4]).d ∧
    1 ≤ (run 1 id [Op.insert 0, Op.insert 2, Op.insert 4]).d ∧
    ∀ t, SplitEntry 1 id t →
      (rehash 1 id t).nextToSplit =
        (if t.nextToSplit + 1 = 2 ^ t.d then 0 else t.nextToSplit + 1) ∧
      (rehash 1 id t).d = (if t.nextToSplit + 1 = 2 ^ t.d then t.d + 1 else t.d) ∧
      (rehash 1 id t).nextToSplit < 2 ^ (rehash 1 id t).d :=
  cursor_bounds 1 (by decide) id (run 1 id [Op.insert 0, Op.insert 2, Op.insert 4])
    (run_reachable 1 id _)

/-- C19: in every reachable state `tableSize = 2^d + nextToSplit`; the constructor and
`clear()` establish it and every split step keeps it while adding one entry, both
when the cursor advances and when it wraps and `d` is incremented. -/
theorem tableSize_exact (N : Nat) (hN : 1 ≤ N) (hash : Key → Nat) (s : ADS_set Key)
    (hs : Reachable N hash s) :
    s.tableSize = 2 ^ s.d + s.nextToSplit ∧
    (init N : ADS_set Key).tableSize =
      2 ^ (init N : ADS_set Key).d + (init N : ADS_set Key).nextToSplit ∧
    (clear N s).tableSize = 2 ^ (clear N s).d + (clear N s).nextToSplit ∧
    ∀ t, SplitEntry N hash t →
      t.tableSize = 2 ^ t.d + t.nextToSplit ∧
      (rehash N hash t).tableSize = t.tableSize + 1 ∧
      (rehash N hash t).tableSize = 2 ^ (rehash N hash t).d + (rehash N hash t).nextToSplit ∧
      (t.nextToSplit + 1 < 2 ^ t.d →
        (rehash N hash t).d = t.d ∧ (rehash N hash t).nextToSplit = t.nextToSplit + 1) ∧
      (t.nextToSplit + 1 = 2 ^ t.d →
        (rehash N hash t).d = t.d + 1 ∧ (rehash N hash t).nextToSplit = 0) := by
  have hinv := hs.inv hN
  refine ⟨hinv.shape.ts, rfl, rfl, fun t ht => ?_⟩
  obtain ⟨h1, h2⟩ := ht.shape hN
  obtain ⟨a, b, c⟩ := rehash_params N hash t h2
  refine ⟨h1.ts, c, (ht.rehash_shape hN).ts, fun hlt => ?_, fun heq => ?_⟩
  · rw [a, b, if_neg (by omega), if_neg (by omega)]
    exact ⟨rfl, rfl⟩
  · rw [a, b, if_pos (by omega), if_pos (by omega)]
    exact ⟨rfl, rfl⟩

/-- Witness of C19: `N = 1`, the keys 0, 2, 4 inserted. -/
theorem tableSize_exact_witness :
    (run 1 id [Op.insert 0, Op.insert 2, Op.insert 4]).tableSize =
      2 ^ (run 1 id [Op.insert 0, Op.insert 2, Op.insert 4]).d +
        (run 1 id [Op.insert 0, Op.insert 2, Op.insert 4]).nextToSplit ∧
    (init 1 : ADS_set Nat).tableSize =
      2 ^ (init 1 : ADS_set Nat).d + (init 1 : ADS_set Nat).nextToSplit ∧
    (clear 1 (run 1 id [Op.insert 0, Op.insert 2, Op.insert 4])).tableSize =
      2 ^ (clear 1 (run 1 id [Op.insert 0, Op.insert 2, Op.insert 4])).d +
        (clear 1 (run 1 id [Op.insert 0, Op.insert 2, Op.insert 4])).nextToSplit ∧
    ∀ t, SplitEntry 1 id t →
      t.tableSize = 2 ^ t.d + t.nextToSplit ∧
      (rehash 1 id t).tableSize = t.tableSize + 1 ∧
      (rehash 1 id t).tableSize = 2 ^ (rehash 1 id t).d + (rehash 1 id t).nextToSplit ∧
      (t.nextToSplit + 1 < 2 ^ t.d →
        (rehash 1 id t).d = t.d ∧ (rehash 1 id t).nextToSplit = t.nextToSplit + 1) ∧
      (t.nextToSplit + 1 = 2 ^ t.d →
        (rehash 1 id t).d = t.d + 1 ∧ (rehash 1 id t).nextToSplit = 0) :=
  tableSize_exact 1 (by decide) id (run 1 id [Op.insert 0, Op.insert 2, Op.insert 4])
    (run_reachable 1 id _)

/-! ### Directory entries that hold no bucket -/

theorem insert_chain_frame (N : Nat) (s : ADS_set Key) (i j : Nat) (k : Key) (h : i ≠ j) :
    tableAt (insert_chain N s i k).1.table j = tableAt s.table j := by
  unfold insert_chain
  simp only [tableAt_set]
  rw [if_neg (fun hc => h hc.1)]

theorem insert_chain_nonnull (N : Nat) (hN : 1 ≤ N) (s : ADS_set Key) (i j : Nat) (k : Key)
    (h : tableAt s.table j ≠ []) : tableAt (insert_chain N s i k).1.table j ≠ [] := by
  unfold insert_chain
  simp only [tableAt_set]
  by_cases hc : i = j ∧ i < s.table.length
  · rw [if_pos hc]
    apply (insert_walk_spec N hN k _ _).2.1
    by_cases h0 : tableAt s.table i = []
    · rw [if_pos h0]
      simp
    · rw [if_neg h0]
      exact h0
  · rw [if_neg hc]
    exact h

theorem redistributeSlots_frame (N : Nat) (hN : 1 ≤ N) (hash : Key → Nat)
    (es : List (Element Key)) (s : ADS_set Key) (j : Nat) :
    (tableAt s.table j ≠ [] → tableAt (redistributeSlots N hash es s).table j ≠ []) ∧
    ((∀ x ∈ slotKeys es, least_sig hash s x ≠ j) →
      tableAt (redistributeSlots N hash es s).table j = tableAt s.table j) := by
  induction es generalizing s with
  | nil => exact ⟨fun h => h, fun _ => rfl⟩
  | cons e es ih =>
    rw [redistributeSlots, slotKeys_cons]
    by_cases hu : e.used = true
    · simp only [hu, if_true]
      obtain ⟨a, b⟩ := ih (insert_chain N s (least_sig hash s e.key) e.key).1
      refine ⟨fun h => a (insert_chain_nonnull N hN s _ j _ h), fun h => ?_⟩
      rw [b, insert_chain_frame N s _ j _ (h e.key (by simp))]
      intro x hx
      rw [(insert_chain_params N s _ _).least_sig hash x]
      exact h x (by simp [hx])
    · simp only [hu, Bool.false_eq_true, if_false]
      exact ih s

theorem redistribute_frame (N : Nat) (hN : 1 ≤ N) (hash : Key → Nat)
    (ch : Chain Key) (s : ADS_set Key) (j : Nat) :
    (tableAt s.table j ≠ [] → tableAt (redistribute N hash ch s).table j ≠ []) ∧
    ((∀ x ∈ chainKeys ch, least_sig hash s x ≠ j) →
      tableAt (redistribute N hash ch s).table j = tableAt s.table j) := by
  induction ch generalizing s with
  | nil => exact ⟨fun h => h, fun _ => rfl⟩
  | cons b bs ih =>
    rw [redistribute, chainKeys_cons]
    obtain ⟨a1, b1⟩ := redistributeSlots_frame N hN hash b.data s j
    obtain ⟨a2, b2⟩ := ih (redistributeSlots N hash b.data s)
    refine ⟨fun h => a2 (a1 h), fun h => ?_⟩
    rw [b2, b1 (fun x hx => h x (by simp [hx]))]
    intro x hx
    rw [(redistributeSlots_params N hash b.data s).least_sig hash x]
    exact h x (by simp [hx])

theorem rehash_prep_entry (N : Nat) (hash : Key → Nat) (s : ADS_set Key) (hs : Shape N hash s)
    (j : Nat) (hj : j < s.tableSize + 1) :
    tableAt (rehash_prep N s).table j =
      if j = s.tableSize then [newBucket N]
      else if j = s.nextToSplit then [] else tableAt s.table j := by
  have hl := hs.size_lt
  have hts := hs.ts
  rw [← tableAt_take _ (s.tableSize + 1) j hj, (rehash_prep_dir N hash s hs).1]
  by_cases hT : j = s.tableSize
  · subst hT
    simp only [if_true]
    unfold tableAt
    rw [List.getD_eq_getElem?_getD, List.getElem?_append_right (by simp)]
    have : s.tableSize - ((s.table.take s.tableSize).set s.nextToSplit []).length = 0 := by
      simp
      omega
    rw [this]
    rfl
  · have hj2 : j < s.tableSize := by omega
    have : tableAt ((s.table.take s.tableSize).set s.nextToSplit [] ++ [[newBucket N]]) j =
        tableAt ((s.table.take s.tableSize).set s.nextToSplit []) j := by
      unfold tableAt
      rw [List.getD_eq_getElem?_getD, List.getD_eq_getElem?_getD,
        List.getElem?_append_left (by simp; omega)]
    rw [this, tableAt_set, tableAt_take _ _ _ hj2, if_neg hT]
    by_cases hp : s.nextToSplit = j
    · subst hp
      have hl2 : s.nextToSplit < s.table.length := by omega
      simp [hj2, hl2]
    · have hp2 : ¬ j = s.nextToSplit := fun h => hp h.symm
      simp [hp, hp2]

theorem splitBound_step (d p : Nat) (hp : p < 2 ^ d) (hd : 1 ≤ d) :
    let d1 := if p + 1 ≥ 2 ^ d then d + 1 else d
    let p1 := if p + 1 ≥ 2 ^ d then 0 else p + 1
    p < (if d1 = 1 then p1 else max p1 (2 ^ (d1 - 1))) ∧
    (if d = 1 then p else max p (2 ^ (d - 1))) ≤ (if d1 = 1 then p1 else max p1 (2 ^ (d1 - 1))) := by
  have h1 : 2 ^ (d - 1) ≤ 2 ^ d := Nat.pow_le_pow_right (by norm_num) (by omega)
  simp only
  by_cases hw : p + 1 ≥ 2 ^ d
  · simp only [if_pos hw, Nat.add_sub_cancel]
    rw [if_neg (by omega)]
    simp only [Nat.zero_max]
    refine ⟨hp, ?_⟩
    split
    · omega
    · exact max_le (by omega) h1
  · simp only [if_neg hw]
    by_cases hd1 : d = 1
    · simp only [if_pos hd1]
      omega
    · simp only [if_neg hd1]
      refine ⟨lt_of_lt_of_le (Nat.lt_succ_self p) (le_max_left _ _), ?_⟩
      exact max_le_max (by omega) (le_refl _)

theorem rehash_noNull (N : Nat) (hN : 1 ≤ N) (hash : Key → Nat) (t : ADS_set Key)
    (ht : Shape N hash t) (hr : t.rehashing = false) (hn : NoNull t) :
    NoNull (rehash N hash t) := by
  obtain ⟨a, b, c⟩ := rehash_params N hash t hr
  obtain ⟨sb1, sb2⟩ := splitBound_step t.d t.nextToSplit ht.nts ht.dpos
  intro i hi hb
  rw [c] at hi
  unfold splitBound at hb
  rw [a, b] at hb
  have key : tableAt (rehash_prep N t).table i ≠ [] := by
    rw [rehash_prep_entry N hash t ht i hi]
    by_cases hT : i = t.tableSize
    · rw [if_pos hT]
      simp
    · rw [if_neg hT]
      have hp : i ≠ t.nextToSplit := by
        intro hp
        rw [hp] at hb
        exact absurd sb1 (Nat.not_lt.2 hb)
      rw [if_neg hp]
      apply hn i (by omega)
      unfold splitBound
      exact le_trans sb2 hb
  rw [rehash_eq, hr, if_neg Bool.false_ne_true]
  exact (redistribute_frame N hN hash _ (rehash_prep N t) i).1 key

theorem eraseChain_ne_nil (k : Key) (ch : Chain Key) (h : ch ≠ []) : eraseChain k ch ≠ [] := by
  cases ch with
  | nil => exact absurd rfl h
  | cons b bs =>
    rw [eraseChain]
    split <;> simp

theorem NoNull.of_same {s t : ADS_set Key} (hn : NoNull s) (hp : SameParams s t)
    (hm : ∀ j, tableAt s.table j ≠ [] → tableAt t.table j ≠ []) : NoNull t := by
  intro i hi hb
  apply hm
  apply hn i (by rw [← hp.1]; exact hi)
  unfold splitBound at hb ⊢
  rw [hp.2.1, hp.2.2.1] at hb
  exact hb

theorem init_noNull (N : Nat) : NoNull (init N : ADS_set Key) := by
  intro i hi _
  have : i = 0 ∨ i = 1 := by
    have : i < 2 := hi
    omega
  rcases this with rfl | rfl <;> simp [init, tableAt]

theorem step_noNull (N : Nat) (hN : 1 ≤ N) (hash : Key → Nat) (s : ADS_set Key)
    (hs : Inv N hash s) (hn : NoNull s) (op : Op Key) : NoNull (step N hash s op) := by
  cases op with
  | insert k =>
    change NoNull (insert N hash s k).1
    rw [insert_fst]
    by_cases hc : contains hash s k = true
    · rw [if_pos hc]
      exact hn
    · rw [if_neg hc]
      have hk : k ∉ keys s := fun h => hc ((contains_iff hs.shape k).2 h)
      have h1 := insert_chain_shape N hN hash s hs.shape k hk
      have hp := insert_chain_params N s (least_sig hash s k) k
      have hn1 : NoNull (insert_chain N s (least_sig hash s k) k).1 :=
        hn.of_same hp (fun j hj => insert_chain_nonnull N hN s _ j k hj)
      have hn2 : NoNull (insert_internal N hash s (least_sig hash s k) k) := by
        unfold insert_internal
        simp only
        split
        · exact rehash_noNull N hN hash _ h1.1 (hp.2.2.2.1.trans hs.idle) hn1
        · exact hn1
      exact hn2
  | erase k =>
    change NoNull (erase hash s k).1
    rw [erase_fst]
    by_cases hc : contains hash s k = true
    · rw [if_pos hc]
      intro i hi hb
      have := hn i hi hb
      change tableAt (s.table.set _ _) i ≠ []
      rw [tableAt_set]
      split
      · rename_i h
        rw [h.1]
        exact eraseChain_ne_nil k _ this
      · exact this
    · rw [if_neg hc]
      exact hn
  | clear =>
    change NoNull (clear N s)
    rw [clear_eq_init N s hs.idle]
    exact init_noNull N

theorem Reachable.noNull {N : Nat} (hN : 1 ≤ N) {hash : Key → Nat} {s : ADS_set Key}
    (h : Reachable N hash s) : NoNull s := by
  induction h with
  | init => exact init_noNull N
  | step s op hs ih => exact step_noNull N hN hash s (hs.inv hN) ih op

/-- C14 as stated fails: with `N = 1` and the identity hash, after `insert(0)`,
`insert(2)` and `insert(4)` the directory has four entries and entry 1 is null (the
second split step detached it and redistributed no key to it). -/
theorem null_entry_counterexample :
    Reachable 1 id (run 1 id [Op.insert 0, Op.insert 2, Op.insert 4]) ∧
    (run 1 id [Op.insert 0, Op.insert 2, Op.insert 4]).tableSize = 4 ∧
    tableAt (run 1 id [Op.insert 0, Op.insert 2, Op.insert 4]).table 1 = [] :=
  ⟨run_reachable 1 id _, by decide, by decide⟩

/-- C14 (amended): in every reachable state directory entry `i < tableSize` holds a
bucket whenever no split step has detached it (`nextToSplit ≤ i`, and `2^(d-1) ≤ i`
unless `d = 1`), and whenever a key is stored in its chain. -/
theorem entry_nonnull (N : Nat) (hN : 1 ≤ N) (hash : Key → Nat) (s : ADS_set Key)
    (hs : Reachable N hash s) :
    (∀ i, i < s.tableSize → s.nextToSplit ≤ i → (s.d = 1 ∨ 2 ^ (s.d - 1) ≤ i) →
      tableAt s.table i ≠ []) ∧
    ∀ k, k ∈ keys s → tableAt s.table (least_sig hash s k) ≠ [] := by
  have hn := hs.noNull hN
  have hinv := hs.inv hN
  refine ⟨fun i hi hp hd => ?_, fun k hk h0 => ?_⟩
  · apply hn i hi
    unfold splitBound
    split
    · exact hp
    · rename_i h1
      rcases hd with hd | hd
      · exact absurd hd h1
      · exact max_le hp hd
  · have := (hinv.shape.mem_keys_iff k).1 hk
    rw [h0] at this
    simp [chainKeys_nil] at this

/-- Witness of the amended C14 on the state of the counterexample. -/
theorem entry_nonnull_witness :
    (∀ i, i < (run 1 id [Op.insert 0, Op.insert 2, Op.insert 4]).tableSize →
      (run 1 id [Op.insert 0, Op.insert 2, Op.insert 4]).nextToSplit ≤ i →
      ((run 1 id [Op.insert 0, Op.insert 2, Op.insert 4]).d = 1 ∨
        2 ^ ((run 1 id [Op.insert 0, Op.insert 2, Op.insert 4]).d - 1) ≤ i) →
      tableAt (run 1 id [Op.insert 0, Op.insert 2, Op.insert 4]).table i ≠ []) ∧
    ∀ k, k ∈ keys (run 1 id [Op.insert 0, Op.insert 2, Op.insert 4]) →
      tableAt (run 1 id [Op.insert 0, Op.insert 2, Op.insert 4]).table
        (least_sig id (run 1 id [Op.insert 0, Op.insert 2, Op.insert 4]) k) ≠ [] :=
  entry_nonnull 1 (by decide) id (run 1 id [Op.insert 0, Op.insert 2, Op.insert 4])
    (run_reachable 1 id _)

/-! ### When an insert splits -/

theorem placeSlot_eq_none (key : Key) (es : List (Element Key)) :
    placeSlot key es = none ↔ ∀ e ∈ es, e.used = true := by
  induction es with
  | nil => simp [placeSlot]
  | cons e es ih =>
    rw [placeSlot]
    by_cases hu : e.used = true
    · simp [hu, ih]
    · simp [hu]

theorem insert_walk_overflow (N : Nat) (key : Key) (ch : Chain Key) (hc : ch ≠ []) :
    (insert_walk N key ch).2 = true ↔ ∀ b ∈ ch, ∀ e ∈ b.data, e.used = true := by
  induction ch with
  | nil => exact absurd rfl hc
  | cons b bs ih =>
    rw [insert_walk]
    cases hp : placeSlot key b.data with
    | some r =>
      simp only [Bool.false_eq_true, false_iff]
      intro h
      have := (placeSlot_eq_none key b.data).2 (h b (by simp))
      rw [this] at hp
      exact Option.noConfusion hp
    | none =>
      have hb := (placeSlot_eq_none key b.data).1 hp
      cases bs with
      | nil =>
        simp only [List.isEmpty_nil, if_true, true_iff, List.mem_singleton, forall_eq]
        exact hb
      | cons b2 rest =>
        simp only [List.isEmpty_cons, Bool.false_eq_true, if_false]
        rw [ih (by simp)]
        constructor
        · intro h b1 hb1
          rcases List.mem_cons.1 hb1 with rfl | h2
          · exact hb
          · exact h b1 h2
        · intro h b1 hb1
          exact h b1 (List.mem_cons_of_mem _ hb1)

theorem insert_chain_overflow (N : Nat) (hN : 1 ≤ N) (s : ADS_set Key) (i : Nat) (k : Key) :
    (insert_chain N s i k).2 = true ↔ ChainFull s i := by
  unfold insert_chain ChainFull
  simp only
  by_cases h0 : tableAt s.table i = []
  · rw [if_pos h0, insert_walk_overflow N k _ (by simp)]
    simp only [h0, ne_eq, not_true_eq_false, false_and, iff_false]
    intro h
    obtain ⟨m, rfl⟩ : ∃ m, N = m + 1 := ⟨N - 1, by omega⟩
    have := h (newBucket (m + 1)) (by simp) ⟨default, false⟩ (by simp [newBucket, List.replicate_succ])
    exact absurd this (by simp)
  · rw [if_neg h0, insert_walk_overflow N k _ h0]
    simp [h0]

theorem insert_split (N : Nat) (hN : 1 ≤ N) (hash : Key → Nat) (s : ADS_set Key)
    (hs : Inv N hash s) (k : Key) (hk : k ∉ keys s) (hf : ChainFull s (least_sig hash s k)) :
    (insert N hash s k).1 =
      { rehash N hash (insert_chain N s (least_sig hash s k) k).1 with
        current_size := (rehash N hash (insert_chain N s (least_sig hash s k) k).1).current_size + 1 } := by
  have hc : ¬ contains hash s k = true := fun h => hk ((contains_iff hs.shape k).1 h)
  have ho := (insert_chain_overflow N hN s (least_sig hash s k) k).2 hf
  have hr : (insert_chain N s (least_sig hash s k) k).1.rehashing = false :=
    (insert_chain_params N s _ k).2.2.2.1.trans hs.idle
  rw [insert_fst, if_neg hc]
  unfold insert_internal
  simp only [ho, hr, Bool.not_false, Bool.and_self, if_true]

theorem insert_no_split (N : Nat) (hN : 1 ≤ N) (hash : Key → Nat) (s : ADS_set Key)
    (hs : Inv N hash s) (k : Key) (hk : k ∉ keys s) (hf : ¬ ChainFull s (least_sig hash s k)) :
    (insert N hash s k).1 =
      { (insert_chain N s (least_sig hash s k) k).1 with
        current_size := (insert_chain N s (least_sig hash s k) k).1.current_size + 1 } := by
  have hc : ¬ contains hash s k = true := fun h => hk ((contains_iff hs.shape k).1 h)
  have ho : (insert_chain N s (least_sig hash s k) k).2 = false := by
    cases h : (insert_chain N s (least_sig hash s k) k).2
    · rfl
    · exact absurd ((insert_chain_overflow N hN s (least_sig hash s k) k).1 h) hf
  rw [insert_fst, if_neg hc]
  unfold insert_internal
  simp only [ho, Bool.false_and, Bool.false_eq_true, if_false]

/-- C16: for every reachable state and key `k` that is not stored, `insert(k)` runs a
split step exactly when the chain at `least_sig(k)` exists and all cells of all its
buckets are used; then `tableSize` grows by exactly one, and otherwise `tableSize`,
`d`, `nextToSplit` and the allocated directory length stay as they are. -/
theorem split_iff_chain_full (N : Nat) (hN : 1 ≤ N) (hash : Key → Nat) (s : ADS_set Key)
    (hs : Reachable N hash s) (k : Key) (hk : k ∉ keys s) :
    ((insert N hash s k).1.tableSize = s.tableSize + 1 ↔ ChainFull s (least_sig hash s k)) ∧
    (ChainFull s (least_sig hash s k) →
      SplitEntry N hash (insert_chain N s (least_sig hash s k) k).1 ∧
      (insert N hash s k).1 =
        { rehash N hash (insert_chain N s (least_sig hash s k) k).1 with
          current_size :=
            (rehash N hash (insert_chain N s (least_sig hash s k) k).1).current_size + 1 }) ∧
    (¬ ChainFull s (least_sig hash s k) →
      (insert N hash s k).1 =
        { (insert_chain N s (least_sig hash s k) k).1 with
          current_size := (insert_chain N s (least_sig hash s k) k).1.current_size + 1 } ∧
      (insert N hash s k).1.tableSize = s.tableSize ∧
      (insert N hash s k).1.d = s.d ∧
      (insert N hash s k).1.nextToSplit = s.nextToSplit ∧
      (insert N hash s k).1.table.length = s.table.length) := by
  have hinv := hs.inv hN
  have hr : (insert_chain N s (least_sig hash s k) k).1.rehashing = false :=
    (insert_chain_params N s _ k).2.2.2.1.trans hinv.idle
  have hfull : ChainFull s (least_sig hash s k) → (insert N hash s k).1.tableSize = s.tableSize + 1 := by
    intro hf
    rw [insert_split N hN hash s hinv k hk hf]
    exact (rehash_params N hash _ hr).2.2
  have hnot : ¬ ChainFull s (least_sig hash s k) →
      (insert N hash s k).1.tableSize = s.tableSize := by
    intro hf
    rw [insert_no_split N hN hash s hinv k hk hf]
    rfl
  refine ⟨⟨fun h => ?_, hfull⟩, fun hf => ⟨?_, insert_split N hN hash s hinv k hk hf⟩,
    fun hf => ⟨insert_no_split N hN hash s hinv k hk hf, hnot hf, ?_, ?_, ?_⟩⟩
  · by_contra hf
    rw [hnot hf] at h
    omega
  · exact ⟨s, k, hs, hk, (insert_chain_overflow N hN s _ k).2 hf, rfl⟩
  · rw [insert_no_split N hN hash s hinv k hk hf]
    rfl
  · rw [insert_no_split N hN hash s hinv k hk hf]
    rfl
  · rw [insert_no_split N hN hash s hinv k hk hf]
    simp [insert_chain]

/-- Witness of C16: `N = 1`, the key 0 stored; `insert(2)` meets the full chain of
entry 0 and splits. -/
theorem split_iff_chain_full_witness :
    ((insert 1 id (run 1 id [Op.insert 0]) 2).1.tableSize = (run 1 id [Op.insert 0]).tableSize + 1 ↔
      ChainFull (run 1 id [Op.insert 0]) (least_sig id (run 1 id [Op.insert 0]) 2)) ∧
    (ChainFull (run 1 id [Op.insert 0]) (least_sig id (run 1 id [Op.insert 0]) 2) →
      SplitEntry 1 id (insert_chain 1 (run 1 id [Op.insert 0])
        (least_sig id (run 1 id [Op.insert 0]) 2) 2).1 ∧
      (insert 1 id (run 1 id [Op.insert 0]) 2).1 =
        { rehash 1 id (insert_chain 1 (run 1 id [Op.insert 0])
            (least_sig id (run 1 id [Op.insert 0]) 2) 2).1 with
          current_size :=
            (rehash 1 id (insert_chain 1 (run 1 id [Op.insert 0])
              (least_sig id (run 1 id [Op.insert 0]) 2) 2).1).current_size + 1 }) ∧
    (¬ ChainFull (run 1 id [Op.insert 0]) (least_sig id (run 1 id [Op.insert 0]) 2) →
      (insert 1 id (run 1 id [Op.insert 0]) 2).1 =
        { (insert_chain 1 (run 1 id [Op.insert 0])
            (least_sig id (run 1 id [Op.insert 0]) 2) 2).1 with
          current_size := (insert_chain 1 (run 1 id [Op.insert 0])
            (least_sig id (run 1 id [Op.insert 0]) 2) 2).1.current_size + 1 } ∧
      (insert 1 id (run 1 id [Op.insert 0]) 2).1.tableSize = (run 1 id [Op.insert 0]).tableSize ∧
      (insert 1 id (run 1 id [Op.insert 0]) 2).1.d = (run 1 id [Op.insert 0]).d ∧
      (insert 1 id (run 1 id [Op.insert 0]) 2).1.nextToSplit =
        (run 1 id [Op.insert 0]).nextToSplit ∧
      (insert 1 id (run 1 id [Op.insert 0]) 2).1.table.length =
        (run 1 id [Op.insert 0]).table.length) :=
  split_iff_chain_full 1 (by decide) id (run 1 id [Op.insert 0]) (run_reachable 1 id _) 2
    (by decide)

/-- C17: when a split step runs with split cursor `p` and logical size `T`, every key
of the chain at position `p` is afterwards stored in the chain at `p` or at the new
position `T` and at no other position, the chains at all other positions are
unchanged, and the stored keys of the container are the same multiset. -/
theorem split_redistribution (N : Nat) (hN : 1 ≤ N) (hash : Key → Nat) (t : ADS_set Key)
    (ht : SplitEntry N hash t) :
    (∀ x ∈ chainKeys (tableAt t.table t.nextToSplit),
      (x ∈ chainKeys (tableAt (rehash N hash t).table t.nextToSplit) ∨
        x ∈ chainKeys (tableAt (rehash N hash t).table t.tableSize)) ∧
      ∀ j, j < (rehash N hash t).tableSize → j ≠ t.nextToSplit → j ≠ t.tableSize →
        x ∉ chainKeys (tableAt (rehash N hash t).table j)) ∧
    (∀ j, j < t.tableSize → j ≠ t.nextToSplit →
      tableAt (rehash N hash t).table j = tableAt t.table j) ∧
    (keys (rehash N hash t)).Perm (keys t) ∧
    (rehash N hash t).tableSize = t.tableSize + 1 := by
  obtain ⟨h1, h2⟩ := ht.shape hN
  obtain ⟨r1, r2, _, _, r5⟩ := rehash_spec N hN hash t h1 h2
  obtain ⟨a, b, _⟩ := rehash_params N hash t h2
  have hnts := h1.nts
  have hts := h1.ts
  have hp : t.nextToSplit < t.tableSize := by omega
  have hsig : ∀ x, least_sig hash (rehash N hash t) x =
      lsig (hash x) (if t.nextToSplit + 1 ≥ 2 ^ t.d then t.d + 1 else t.d)
        (if t.nextToSplit + 1 ≥ 2 ^ t.d then 0 else t.nextToSplit + 1) := by
    intro x
    rw [least_sig_eq, a, b]
  have hloc : ∀ x ∈ chainKeys (tableAt t.table t.nextToSplit),
      least_sig hash (rehash N hash t) x = t.nextToSplit ∨
      least_sig hash (rehash N hash t) x = t.tableSize := by
    intro x hx
    have h3 := h1.idx _ hp x hx
    rw [least_sig_eq] at h3
    rw [hsig, hts]
    exact lsig_step_eq _ _ _ hnts h3
  refine ⟨fun x hx => ⟨?_, fun j hj hjp hjT hmem => ?_⟩, fun j hj hjp => ?_, r2, r5⟩
  · have hxk : x ∈ keys (rehash N hash t) :=
      r2.mem_iff.2 ((mem_keys t (Nat.le_of_lt h1.size_lt) x).2 ⟨_, hp, hx⟩)
    have := (r1.mem_keys_iff x).1 hxk
    rcases hloc x hx with e | e
    · left; rw [e] at this; exact this
    · right; rw [e] at this; exact this
  · have := r1.idx j hj x hmem
    rcases hloc x hx with e | e
    · exact hjp (this.symm.trans e)
    · exact hjT (this.symm.trans e)
  · rw [rehash_eq, h2, if_neg Bool.false_ne_true]
    change tableAt (redistribute N hash _ (rehash_prep N t)).table j = _
    rw [(redistribute_frame N hN hash _ (rehash_prep N t) j).2,
      rehash_prep_entry N hash t h1 j (by omega), if_neg (by omega), if_neg hjp]
    intro x hx
    have h3 := h1.idx _ hp x hx
    rw [least_sig_eq] at h3
    rw [rehash_prep_least_sig]
    rcases lsig_step_eq _ _ _ hnts h3 with e | e
    · rw [e]; exact fun h => hjp h.symm
    · rw [e]; omega

/-- Witness of C17: `N = 1`, the key 0 stored, `insert(2)` has appended an overflow
bucket to the chain of entry 0 and the split step detaches that chain. -/
theorem split_redistribution_witness :
    (∀ x ∈ chainKeys (tableAt (insert_chain 1 (run 1 id [Op.insert 0]) 0 2).1.table
        (insert_chain 1 (run 1 id [Op.insert 0]) 0 2).1.nextToSplit),
      (x ∈ chainKeys (tableAt (rehash 1 id (insert_chain 1 (run 1 id [Op.insert 0]) 0 2).1).table
          (insert_chain 1 (run 1 id [Op.insert 0]) 0 2).1.nextToSplit) ∨
        x ∈ chainKeys (tableAt (rehash 1 id (insert_chain 1 (run 1 id [Op.insert 0]) 0 2).1).table
          (insert_chain 1 (run 1 id [Op.insert 0]) 0 2).1.tableSize)) ∧
      ∀ j, j < (rehash 1 id (insert_chain 1 (run 1 id [Op.insert 0]) 0 2).1).tableSize →
        j ≠ (insert_chain 1 (run 1 id [Op.insert 0]) 0 2).1.nextToSplit →
        j ≠ (insert_chain 1 (run 1 id [Op.insert 0]) 0 2).1.tableSize →
        x ∉ chainKeys
          (tableAt (rehash 1 id (insert_chain 1 (run 1 id [Op.insert 0]) 0 2).1).table j)) ∧
    (∀ j, j < (insert_chain 1 (run 1 id [Op.insert 0]) 0 2).1.tableSize →
      j ≠ (insert_chain 1 (run 1 id [Op.insert 0]) 0 2).1.nextToSplit →
      tableAt (rehash 1 id (insert_chain 1 (run 1 id [Op.insert 0]) 0 2).1).table j =
        tableAt (insert_chain 1 (run 1 id [Op.insert 0]) 0 2).1.table j) ∧
    (keys (rehash 1 id (insert_chain 1 (run 1 id [Op.insert 0]) 0 2).1)).Perm
      (keys (insert_chain 1 (run 1 id [Op.insert 0]) 0 2).1) ∧
    (rehash 1 id (insert_chain 1 (run 1 id [Op.insert 0]) 0 2).1).tableSize =
      (insert_chain 1 (run 1 id [Op.insert 0]) 0 2).1.tableSize + 1 :=
  split_redistribution 1 (by decide) id (insert_chain 1 (run 1 id [Op.insert 0]) 0 2).1
    ⟨run 1 id [Op.insert 0], 2, run_reachable 1 id _, by decide, by decide, by decide⟩

/-! ### The cell that erase changes -/

theorem eraseSlot_set (key : Key) (es : List (Element Key)) (n i : Nat)
    (h : slotOf key es n = some i) :
    ∃ e, es[i - n]? = some e ∧ e.used = true ∧ e.key = key ∧
      eraseSlot key es = some (es.set (i - n) ⟨e.key, false⟩) := by
  induction es generalizing n with
  | nil => simp [slotOf] at h
  | cons e0 es ih =>
    rw [slotOf] at h
    rw [eraseSlot]
    by_cases hc : (e0.used && decide (e0.key = key)) = true
    · rw [if_pos hc] at h
      rw [if_pos hc]
      simp only [Option.some.injEq] at h
      subst h
      simp only [Bool.and_eq_true, decide_eq_true_eq] at hc
      exact ⟨e0, by simp, hc.1, hc.2, by simp⟩
    · rw [if_neg hc] at h
      rw [if_neg hc]
      obtain ⟨e, h1, h2, h3, h4⟩ := ih (n + 1) h
      have hle := (slotOf_some key es (n + 1) i h).1
      have hin : i - n = (i - (n + 1)) + 1 := by omega
      refine ⟨e, ?_, h2, h3, ?_⟩
      · rw [hin]
        simpa using h1
      · rw [h4, hin]
        rfl

theorem slotOf_first (key : Key) (es : List (Element Key)) (n i : Nat)
    (h : slotOf key es n = some i) (m : Nat) (e : Element Key) (hm : m < i - n)
    (he : es[m]? = some e) : ¬ (e.used = true ∧ e.key = key) := by
  induction es generalizing n m with
  | nil => simp [slotOf] at h
  | cons e0 es ih =>
    rw [slotOf] at h
    by_cases hc : (e0.used && decide (e0.key = key)) = true
    · rw [if_pos hc] at h
      simp only [Option.some.injEq] at h
      omega
    · rw [if_neg hc] at h
      cases m with
      | zero =>
        simp only [List.getElem?_cons_zero, Option.some.injEq] at he
        subst he
        simpa using hc
      | succ m1 =>
        simp only [List.getElem?_cons_succ] at he
        exact ih (n + 1) h m1 (by omega) he

theorem slotOf_none_all (key : Key) (es : List (Element Key)) (n : Nat)
    (h : slotOf key es n = none) (e : Element Key) (he : e ∈ es) :
    ¬ (e.used = true ∧ e.key = key) := by
  intro hc
  apply (slotOf_eq_none key es n).1 h
  unfold slotKeys
  rw [List.mem_map]
  exact ⟨e, List.mem_filter.2 ⟨he, hc.1⟩, hc.2⟩

theorem eraseChain_set (key : Key) (ch : Chain Key) (n c i : Nat)
    (h : locate key ch n = some (c, i)) :
    ∃ b e, ch[c - n]? = some b ∧ b.data[i]? = some e ∧ e.used = true ∧ e.key = key ∧
      eraseChain key ch = ch.set (c - n) ⟨b.data.set i ⟨e.key, false⟩⟩ ∧
      ∀ c1 i1 b1 e1, (c1 < c - n ∨ (c1 = c - n ∧ i1 < i)) → ch[c1]? = some b1 →
        b1.data[i1]? = some e1 → ¬ (e1.used = true ∧ e1.key = key) := by
  induction ch generalizing n with
  | nil => simp [locate] at h
  | cons b0 bs ih =>
    rw [locate] at h
    rw [eraseChain]
    cases hs : slotOf key b0.data 0 with
    | some j =>
      rw [hs] at h
      simp only [Option.some.injEq, Prod.mk.injEq] at h
      obtain ⟨rfl, rfl⟩ := h
      obtain ⟨e, h1, h2, h3, h4⟩ := eraseSlot_set key b0.data 0 j hs
      simp only [Nat.sub_zero] at h1 h4
      refine ⟨b0, e, by simp, h1, h2, h3, by rw [h4]; simp, ?_⟩
      intro c1 i1 b1 e1 hlt hb1 he1
      simp only [Nat.sub_self] at hlt
      rcases hlt with hlt | ⟨rfl, hlt⟩
      · omega
      · simp only [List.getElem?_cons_zero, Option.some.injEq] at hb1
        subst hb1
        exact slotOf_first key b0.data 0 j hs i1 e1 (by omega) he1
    | none =>
      rw [hs] at h
      simp only at h
      have hno : eraseSlot key b0.data = none :=
        (eraseSlot_eq_none key b0.data).2 ((slotOf_eq_none key b0.data 0).1 hs)
      rw [hno]
      obtain ⟨b, e, h1, h2, h3, h4, h5, h6⟩ := ih (n + 1) h
      have hle := (locate_some key bs (n + 1) c i h).1
      have hcn : c - n = (c - (n + 1)) + 1 := by omega
      refine ⟨b, e, ?_, h2, h3, h4, ?_, ?_⟩
      · rw [hcn]
        simpa using h1
      · simp only
        rw [h5, hcn]
        rfl
      · intro c1 i1 b1 e1 hlt hb1 he1
        cases c1 with
        | zero =>
          simp only [List.getElem?_cons_zero, Option.some.injEq] at hb1
          subst hb1
          exact slotOf_none_all key b0.data 0 hs e1 (List.getElem?_mem he1)
        | succ c2 =>
          simp only [List.getElem?_cons_succ] at hb1
          exact h6 c2 i1 b1 e1 (by omega) hb1 he1

/-- C18: for every reachable state and stored key `k`, `erase(k)` changes only the
`used` flag of the first cell (in chain, then slot order, at directory position
`least_sig(k)`) that holds `k`, which becomes unused, and the element count:
`tableSize`, `d`, `nextToSplit`, the buckets of every chain and the key and flag of
every other cell are as before. -/
theorem erase_frame (N : Nat) (hN : 1 ≤ N) (hash : Key → Nat) (s : ADS_set Key)
    (hs : Reachable N hash s) (k : Key) (hk : k ∈ keys s) :
    ∃ c i b e, (tableAt s.table (least_sig hash s k))[c]? = some b ∧
      b.data[i]? = some e ∧ e.used = true ∧ e.key = k ∧
      (∀ c1 i1 b1 e1, (c1 < c ∨ (c1 = c ∧ i1 < i)) →
        (tableAt s.table (least_sig hash s k))[c1]? = some b1 → b1.data[i1]? = some e1 →
        ¬ (e1.used = true ∧ e1.key = k)) ∧
      (erase hash s k).1 =
        { s with
          table := s.table.set (least_sig hash s k)
            ((tableAt s.table (least_sig hash s k)).set c ⟨b.data.set i ⟨e.key, false⟩⟩)
          current_size := s.current_size - 1 } ∧
      (erase hash s k).1.tableSize = s.tableSize ∧ (erase hash s k).1.d = s.d ∧
      (erase hash s k).1.nextToSplit = s.nextToSplit ∧
      (erase hash s k).1.table.length = s.table.length ∧
      ∀ j, (tableAt (erase hash s k).1.table j).length = (tableAt s.table j).length := by
  have hinv := hs.inv hN
  have hc := (contains_iff hinv.shape k).2 hk
  have hloc : (locate k (tableAt s.table (least_sig hash s k)) 0).isSome = true := hc
  cases hl : locate k (tableAt s.table (least_sig hash s k)) 0 with
  | none => rw [hl] at hloc; exact absurd hloc (by simp)
  | some ci =>
    obtain ⟨c, i⟩ := ci
    obtain ⟨b, e, h1, h2, h3, h4, h5, h6⟩ := eraseChain_set k _ 0 c i hl
    simp only [Nat.sub_zero] at h1 h5 h6
    have heq : (erase hash s k).1 =
        { s with
          table := s.table.set (least_sig hash s k)
            ((tableAt s.table (least_sig hash s k)).set c ⟨b.data.set i ⟨e.key, false⟩⟩)
          current_size := s.current_size - 1 } := by
      rw [erase_fst, if_pos hc, h5]
    refine ⟨c, i, b, e, h1, h2, h3, h4, h6, heq, ?_, ?_, ?_, ?_, ?_⟩
    · rw [heq]
    · rw [heq]
    · rw [heq]
    · rw [heq]
      simp
    · intro j
      rw [heq]
      simp only [tableAt_set]
      split
      · rename_i h
        rw [← h.1]
        simp
      · rfl

/-- Witness of C18: `N = 1`, the keys 0, 2, 4 stored (4 in an overflow bucket of
entry 0), `erase(4)`. -/
theorem erase_frame_witness :
    ∃ c i b e,
      (tableAt (run 1 id [Op.insert 0, Op.insert 2, Op.insert 4]).table
        (least_sig id (run 1 id [Op.insert 0, Op.insert 2, Op.insert 4]) 4))[c]? = some b ∧
      b.data[i]? = some e ∧ e.used = true ∧ e.key = 4 ∧
      (∀ c1 i1 b1 e1, (c1 < c ∨ (c1 = c ∧ i1 < i)) →
        (tableAt (run 1 id [Op.insert 0, Op.insert 2, Op.insert 4]).table
          (least_sig id (run 1 id [Op.insert 0, Op.insert 2, Op.insert 4]) 4))[c1]? = some b1 →
        b1.data[i1]? = some e1 → ¬ (e1.used = true ∧ e1.key = 4)) ∧
      (erase id (run 1 id [Op.insert 0, Op.insert 2, Op.insert 4]) 4).1 =
        { run 1 id [Op.insert 0, Op.insert 2, Op.insert 4] with
          table := (run 1 id [Op.insert 0, Op.insert 2, Op.insert 4]).table.set
            (least_sig id (run 1 id [Op.insert 0, Op.insert 2, Op.insert 4]) 4)
            ((tableAt (run 1 id [Op.insert 0, Op.insert 2, Op.insert 4]).table
              (least_sig id (run 1 id [Op.insert 0, Op.insert 2, Op.insert 4]) 4)).set c
                ⟨b.data.set i ⟨e.key, false⟩⟩)
          current_size := (run 1 id [Op.insert 0, Op.insert 2, Op.insert 4]).current_size - 1 } ∧
      (erase id (run 1 id [Op.insert 0, Op.insert 2, Op.insert 4]) 4).1.tableSize =
        (run 1 id [Op.insert 0, Op.insert 2, Op.insert 4]).tableSize ∧
      (erase id (run 1 id [Op.insert 0, Op.insert 2, Op.insert 4]) 4).1.d =
        (run 1 id [Op.insert 0, Op.insert 2, Op.insert 4]).d ∧
      (erase id (run 1 id [Op.insert 0, Op.insert 2, Op.insert 4]) 4).1.nextToSplit =
        (run 1 id [Op.insert 0, Op.insert 2, Op.insert 4]).nextToSplit ∧
      (erase id (run 1 id [Op.insert 0, Op.insert 2, Op.insert 4]) 4).1.table.length =
        (run 1 id [Op.insert 0, Op.insert 2, Op.insert 4]).table.length ∧
      ∀ j, (tableAt (erase id (run 1 id [Op.insert 0, Op.insert 2, Op.insert 4]) 4).1.table
          j).length =
        (tableAt (run 1 id [Op.insert 0, Op.insert 2, Op.insert 4]).table j).length :=
  erase_frame 1 (by decide) id (run 1 id [Op.insert 0, Op.insert 2, Op.insert 4])
    (run_reachable 1 id _) 4 (by decide)

/-! ### The result of `set_d` -/

end ADS_set
